import Mathlib

/-!
Verification of the HYBF (Hybrid Binary Format) codec against its
natural-language specification.

This file gives a shallow embedding, in Lean 4, of the parts of the Python
source that the spec claims talk about:

* `src/hybf/core/base.py` — the byte I/O helpers (`BinaryReader`);
* `src/hybf/core/types.py` — the type model and `TypeAnalyzer`;
* `src/hybf/core/encoding.py` — the bit-packed dictionary codec;
* `src/hybf/formats/raw.py` — the RAW optimized-numeric column codec;
* `src/hybf/formats/minimal.py` — the minimal container;
* `src/hybf/formats/compressed.py` — the compression selector and the
  RLE / SINGLE_VALUE / NULL payload codecs;
* `src/hybf/utils/numeric.py` — the second numeric analyzer;
* `src/hybf/factory.py` — the format factory.

Modelling conventions:

* byte streams are `List Nat` with every element below 256;
* machine integers are `Nat`/`Int`; twos-complement storage images are taken
  with explicit `% 2 ^ (8 * width)`;
* fallible readers return `Except HybfError`; the error constructors mirror
  the `ValueError`/`EOFError`/`TypeError` sites of the source;
* Python `while` loops are embedded as structural recursions over an explicit
  fuel argument; callers pass fuel large enough that the fuel never runs out
  (this is proved where a claim needs it);
* floating-point cells never decide any claim below; where a float value
  would be serialized, only the framing (its byte width) is modelled;
* `pandas.DataFrame.memory_usage(deep=True).sum()` is treated as an oracle:
  the factory model receives that number as a field of `DFStats`.

Modelled from the spec: the module `hybf/constants.py` (imported by
`core/base.py` and `formats/minimal.py`) is not present under `src/`; the
spec fixes a 4-byte MAGIC constant and VERSION = 1, with the concrete magic
bytes irrelevant as long as writer and reader agree, so the embedding fixes
an arbitrary 4-byte constant.
-/

set_option linter.unusedVariables false

namespace Hybf

/-- Error kinds raised by the reader paths of the source
(`ValueError`, `EOFError`, `struct.error`, `IndexError`, `TypeError`,
`KeyError` sites). -/
inductive HybfError where
  | truncated
  | lengthMismatch
  | invalidMagic
  | unsupportedVersion
  | wrongContainer
  | unknownEncoding
  | invalidValue
  | typeError
  deriving DecidableEq, Repr

/-! ## Byte-level helpers

`struct.pack` with big-endian formats, and little-endian value images for
bulk numeric payloads (`ndarray.tobytes()` on a little-endian host). -/

/-- Big-endian 2-byte image of `n`, as written by `struct.pack` with
format `>H` (in range below 2 ^ 16). -/
def u16be (n : Nat) : List Nat := [n / 256 % 256, n % 256]

/-- Big-endian 4-byte image of `n`, as written by `struct.pack` with
format `>I` (in range below 2 ^ 32). -/
def u32be (n : Nat) : List Nat :=
  [n / 16777216 % 256, n / 65536 % 256, n / 256 % 256, n % 256]

/-- Big-endian 8-byte twos-complement image of the signed integer `z`, as
written by `struct.pack` with format `>q`. -/
def i64be (z : Int) : List Nat :=
  let n := (z % (18446744073709551616 : Int)).toNat
  [n / 72057594037927936 % 256, n / 281474976710656 % 256,
   n / 1099511627776 % 256, n / 4294967296 % 256,
   n / 16777216 % 256, n / 65536 % 256, n / 256 % 256, n % 256]

/-- Little-endian `width`-byte image of the natural number `n`
(`ndarray.tobytes()` of one unsigned element). -/
def leBytes (width n : Nat) : List Nat :=
  (List.range width).map (fun i => n / 256 ^ i % 256)

/-- Little-endian `width`-byte twos-complement image of the signed integer
`z`: the byte image `numpy.astype` produces after wrapping into the
destination width. -/
def intLE (width : Nat) (z : Int) : List Nat :=
  leBytes width ((z % ((2 : Int) ^ (8 * width))).toNat)

/-- Reads one byte (`struct.unpack` format `B`); fails when the stream is
empty (`struct.error`). -/
def readU8 (src : List Nat) : Except HybfError (Nat × List Nat) :=
  match src with
  | [] => .error .truncated
  | b :: rest => .ok (b, rest)

/-- Reads a big-endian `u16` (`struct.unpack` format `>H`). -/
def readU16be (src : List Nat) : Except HybfError (Nat × List Nat) :=
  match src with
  | b0 :: b1 :: rest => .ok (b0 * 256 + b1, rest)
  | _ => .error .truncated

/-- Reads a big-endian `u32` (`struct.unpack` format `>I`). -/
def readU32be (src : List Nat) : Except HybfError (Nat × List Nat) :=
  match src with
  | b0 :: b1 :: b2 :: b3 :: rest =>
      .ok (b0 * 16777216 + b1 * 65536 + b2 * 256 + b3, rest)
  | _ => .error .truncated

/-- Reads a big-endian signed `i64` (`struct.unpack` format `>q`). -/
def readI64be (src : List Nat) : Except HybfError (Int × List Nat) :=
  match src with
  | b0 :: b1 :: b2 :: b3 :: b4 :: b5 :: b6 :: b7 :: rest =>
      let n : Nat := b0 * 72057594037927936 + b1 * 281474976710656 +
        b2 * 1099511627776 + b3 * 4294967296 + b4 * 16777216 +
        b5 * 65536 + b6 * 256 + b7
      let z : Int := if n < 9223372036854775808 then (n : Int)
        else (n : Int) - 18446744073709551616
      .ok (z, rest)
  | _ => .error .truncated

/-! ## `core/base.py` — `BinaryReader` (claim C9) -/

namespace BinaryReader

/-- Embedding of `BinaryReader.read_bytes`: `return self.source.read(count)`.
A Python file object's `read(count)` returns at most `count` bytes and
silently returns fewer when fewer remain; the method adds no check. -/
def readBytesFn (src : List Nat) (count : Nat) : List Nat :=
  src.take count

/-- Embedding of `BinaryReader.read_array` on a buffer source: computes
`bytes_to_read = dtype.itemsize * count`, reads, and raises `EOFError`
when fewer bytes come back; on success returns the consumed bytes (the
little-endian element image `np.frombuffer` reinterprets) and the rest. -/
def readArrayFn (itemsize count : Nat) (src : List Nat) :
    Except HybfError (List Nat × List Nat) :=
  let bytesToRead := itemsize * count
  if src.length < bytesToRead then .error .truncated
  else .ok (src.take bytesToRead, src.drop bytesToRead)

end BinaryReader

/-! ## `factory.py` — `FormatFactory` (claim C8) -/

/-- The two container kinds (`FormatType` in `core/dtypes.py`). -/
inductive FormatType where
  | minimal
  | compressed
  deriving DecidableEq, Repr

/-- Input statistics of a `DataFrame` as the factory consumes them.
`memUsageDeepSum` is the oracle value of
`df.memory_usage(deep=True).sum()`; `colNames` are the UTF-8 byte images
of the column names. -/
structure DFStats where
  memUsageDeepSum : Nat
  colNames : List (List Nat)

namespace FormatFactory

/-- Embedding of the size estimate inside `FormatFactory.create_writer`:
data size plus the summed byte lengths of the column names plus 8 for the
header plus 2 per column. -/
def estimatedSize (d : DFStats) : Nat :=
  d.memUsageDeepSum + (d.colNames.map List.length).sum + 8 +
    2 * d.colNames.length

/-- Embedding of `FormatFactory.create_writer`: the minimal writer when the
estimate is at most 4096 bytes, the compressed writer otherwise. -/
def createWriter (d : DFStats) : FormatType :=
  if estimatedSize d ≤ 4096 then .minimal else .compressed

end FormatFactory

/-! ## Type model (`core/types.py`, `core/dtypes.py`) -/

/-- Logical (caller-facing) types, `LogicalType` in `core/types.py`; the
wire enumeration `DataType` in `core/dtypes.py` uses the same order
INT32=1 … BOOLEAN=6. -/
inductive LogicalType where
  | int32
  | int64
  | float32
  | float64
  | string
  | boolean
  deriving DecidableEq, Repr

/-- Wire code of a logical type (`DataType` values in `core/dtypes.py`,
also the `auto()` values of `LogicalType`). -/
def LogicalType.code : LogicalType → Nat
  | .int32 => 1
  | .int64 => 2
  | .float32 => 3
  | .float64 => 4
  | .string => 5
  | .boolean => 6

/-- Byte width of `LogicalType.to_numpy()` elements (`numpy` item sizes;
object dtype has no fixed width and is never read as an array). -/
def LogicalType.itemsize : LogicalType → Nat
  | .int32 => 4
  | .int64 => 8
  | .float32 => 4
  | .float64 => 8
  | .string => 0
  | .boolean => 1

/-- Physical storage types, `StorageType` in `core/types.py`. -/
inductive StorageType where
  | uint8
  | uint16
  | uint32
  | int8
  | int16
  | int32
  | int64
  | float32
  | float64
  | bool
  | string
  deriving DecidableEq, Repr

/-- Byte width of `StorageType.get_numpy_dtype()` elements. -/
def StorageType.itemsize : StorageType → Nat
  | .uint8 => 1
  | .uint16 => 2
  | .uint32 => 4
  | .int8 => 1
  | .int16 => 2
  | .int32 => 4
  | .int64 => 8
  | .float32 => 4
  | .float64 => 8
  | .bool => 1
  | .string => 0

/-- Full column type record, `ColumnTypeInfo` in `core/types.py` (the
`name` field is irrelevant to every claim and omitted). -/
structure ColumnTypeInfo where
  logicalType : LogicalType
  storageType : StorageType
  nullable : Bool
  deriving DecidableEq, Repr

/-- Minimum of a list of integers as `pandas.Series.min` computes it over
the non-null values; 0 on an empty list (the sources guard emptiness before
calling it). -/
def listMin (l : List Int) : Int :=
  match l with
  | [] => 0
  | x :: xs => xs.foldl min x

/-- Maximum of a list of integers as `pandas.Series.max` computes it. -/
def listMax (l : List Int) : Int :=
  match l with
  | [] => 0
  | x :: xs => xs.foldl max x

/-! ## The three integer-width analyzers (claim C5) -/

/-- Embedding of `TypeAnalyzer._analyze_integer_storage` in
`core/types.py`: unsigned ranges are checked first when `min ≥ 0`, then the
signed ladder, with INT32 as the default for a series with no non-null
values. -/
def analyzeIntegerStorage (values : List (Option Int)) : StorageType :=
  let nonNull := values.filterMap id
  match nonNull with
  | [] => .int32
  | _ =>
    let minVal := listMin nonNull
    let maxVal := listMax nonNull
    if 0 ≤ minVal ∧ maxVal ≤ 255 then .uint8
    else if 0 ≤ minVal ∧ maxVal ≤ 65535 then .uint16
    else if 0 ≤ minVal ∧ maxVal ≤ 4294967295 then .uint32
    else if -128 ≤ minVal ∧ maxVal ≤ 127 then .int8
    else if -32768 ≤ minVal ∧ maxVal ≤ 32767 then .int16
    else if -2147483648 ≤ minVal ∧ maxVal ≤ 2147483647 then .int32
    else .int64

/-- Embedding of the integer branch of `analyze_numeric_column` in
`formats/raw.py`, applied to the non-null values of an object column whose
members are all Python ints: the unsigned ladder under `min ≥ 0` falls
through to the signed ladder. The caller returns `None` before this point
when the non-null list is empty, so the `[]` case is unreachable. -/
def rawOptimalIntDtype (nonNull : List Int) : StorageType :=
  match nonNull with
  | [] => .int64
  | _ =>
    let minVal := listMin nonNull
    let maxVal := listMax nonNull
    if 0 ≤ minVal ∧ maxVal ≤ 255 then .uint8
    else if 0 ≤ minVal ∧ maxVal ≤ 65535 then .uint16
    else if 0 ≤ minVal ∧ maxVal ≤ 4294967295 then .uint32
    else if -128 ≤ minVal ∧ maxVal ≤ 127 then .int8
    else if -32768 ≤ minVal ∧ maxVal ≤ 32767 then .int16
    else if -2147483648 ≤ minVal ∧ maxVal ≤ 2147483647 then .int32
    else .int64

/-- Embedding of the integer branch of `analyze_numeric_column` in
`utils/numeric.py`: this variant interleaves the ladders and tests each
signed range before the unsigned range of the same width. -/
def utilsOptimalIntDtype (nonNull : List Int) : StorageType :=
  match nonNull with
  | [] => .int64
  | _ =>
    let minVal := listMin nonNull
    let maxVal := listMax nonNull
    if -128 ≤ minVal ∧ maxVal ≤ 127 then .int8
    else if 0 ≤ minVal ∧ maxVal ≤ 255 then .uint8
    else if -32768 ≤ minVal ∧ maxVal ≤ 32767 then .int16
    else if 0 ≤ minVal ∧ maxVal ≤ 65535 then .uint16
    else if -2147483648 ≤ minVal ∧ maxVal ≤ 2147483647 then .int32
    else if 0 ≤ minVal ∧ maxVal ≤ 4294967295 then .uint32
    else .int64

/-- The storage choice exactly as claim C5 words it: when `min ≥ 0` an
unsigned width is preferred (UINT8 / UINT16 / UINT32 by `max`), otherwise
the narrowest signed width containing both `min` and `max`, and INT64 when
none does. This definition follows the claim, not the source, and is the
yardstick the three source analyzers are compared against. -/
def claimIntStorage (minVal maxVal : Int) : StorageType :=
  if 0 ≤ minVal then
    if maxVal ≤ 255 then .uint8
    else if maxVal ≤ 65535 then .uint16
    else if maxVal ≤ 4294967295 then .uint32
    else if maxVal ≤ 127 then .int8
    else if maxVal ≤ 32767 then .int16
    else if maxVal ≤ 2147483647 then .int32
    else .int64
  else
    if -128 ≤ minVal ∧ maxVal ≤ 127 then .int8
    else if -32768 ≤ minVal ∧ maxVal ≤ 32767 then .int16
    else if -2147483648 ≤ minVal ∧ maxVal ≤ 2147483647 then .int32
    else .int64

/-! ## `formats/compressed.py` — `CompressionSelector` (claims C4, C10) -/

/-- Per-column encodings, `CompressionType` in `core/dtypes.py`. -/
inductive CompressionType where
  | raw
  | rle
  | dictionary
  | singleValue
  | null
  deriving DecidableEq, Repr

/-- Wire tag of a compression type. -/
def CompressionType.code : CompressionType → Nat
  | .raw => 1
  | .rle => 2
  | .dictionary => 3
  | .singleValue => 4
  | .null => 5

/-- The `numpy` dtype of a `pandas.Series` as far as the selector tests it:
`series.dtype == object` and `np.issubdtype(series.dtype, np.number)`. -/
inductive PDtype where
  | object
  | int32
  | int64
  | float32
  | float64
  | boolDtype
  deriving DecidableEq, Repr

/-- Result of `np.issubdtype(dtype, np.number)`: true for the integer and
float dtypes, false for object and bool. -/
def PDtype.isNumeric : PDtype → Bool
  | .int32 => true
  | .int64 => true
  | .float32 => true
  | .float64 => true
  | _ => false

/-- Result of `series.dtype == object`. -/
def PDtype.isObject : PDtype → Bool
  | .object => true
  | _ => false

/-- A `pandas.Series` as the selector consumes it: a dtype and the cells in
row order, `none` for a null (`NaN`/`None`). -/
structure SeriesModel (α : Type) where
  dtype : PDtype
  values : List (Option α)

namespace SeriesModel

variable {α : Type} [DecidableEq α]

/-- The non-null cells in row order (`series.dropna()`). -/
def nonNull (s : SeriesModel α) : List α := s.values.filterMap id

/-- Number of null cells (`series.isna().sum()`). -/
def nullCount (s : SeriesModel α) : Nat :=
  s.values.countP (fun v => v.isNone)

/-- Number of distinct non-null values (`len(series.value_counts())`, and
equally `series.dropna().nunique()`; `value_counts` drops nulls). -/
def distinctNonNull (s : SeriesModel α) : Nat := s.nonNull.dedup.length

end SeriesModel

/-- Cell equality as the `value == current_value` comparison in
`CompressionSelector._calculate_runs` evaluates it on a numeric series:
two non-null cells compare by value, and a null (`NaN`) compares unequal
to everything, itself included. -/
def runEq {α : Type} [DecidableEq α] : Option α → Option α → Bool
  | some a, some b => a = b
  | _, _ => false

/-- Inner loop of `CompressionSelector._calculate_runs`: extends the
current run while cells compare equal, otherwise closes it. -/
def calcRunsAux {α : Type} [DecidableEq α]
    (cur : Option α) (count : Nat) :
    List (Option α) → List (Option α × Nat)
  | [] => [(cur, count)]
  | v :: rest =>
      if runEq v cur then calcRunsAux cur (count + 1) rest
      else (cur, count) :: calcRunsAux v 1 rest

/-- Embedding of `CompressionSelector._calculate_runs`: seeds the first run
with `series.iloc[0]` and folds the remaining cells. The source indexes
element 0 unconditionally and is only called on non-empty series; the `[]`
case is unreachable. -/
def calcRuns {α : Type} [DecidableEq α]
    (values : List (Option α)) : List (Option α × Nat) :=
  match values with
  | [] => []
  | v :: rest => calcRunsAux v 1 rest

/-- Embedding of `CompressionSelector.select_strategy` with the default
thresholds (`uniqueness_threshold = 0.1`, `redundancy_threshold = 0.5`,
modelled as the rationals 1/10 and 1/2): all-null series get NULL; a
series with non-null values, exactly one distinct one and no nulls gets
SINGLE_VALUE; an object series whose distinct-over-length ratio is at most
the uniqueness threshold gets DICTIONARY; a numeric series whose
runs-over-length ratio is at most the redundancy threshold gets RLE;
everything else gets RAW. -/
def selectStrategy {α : Type} [DecidableEq α]
    (s : SeriesModel α) : CompressionType :=
  if s.values.all (fun v => v.isNone) then .null
  else if 0 < s.nonNull.length ∧ s.distinctNonNull = 1 ∧ s.nullCount = 0 then
    .singleValue
  else if s.dtype.isObject ∧
      (s.distinctNonNull : ℚ) / (s.values.length : ℚ) ≤ 1 / 10 then
    .dictionary
  else if s.dtype.isNumeric ∧
      ((calcRuns s.values).length : ℚ) / (s.values.length : ℚ) ≤ 1 / 2 then
    .rle
  else .raw

/-- The selector exactly as claim C4 words it (a definition from the claim,
compared with `selectStrategy` from the source): NULL when all values are
null, else SINGLE_VALUE when there is exactly one distinct non-null value
and no nulls, else DICTIONARY for a string column within the uniqueness
threshold, else RLE for a numeric column within the redundancy threshold,
else RAW. -/
def claimSelect {α : Type} [DecidableEq α]
    (s : SeriesModel α) : CompressionType :=
  if s.values.all (fun v => v.isNone) then .null
  else if s.distinctNonNull = 1 ∧ s.nullCount = 0 then .singleValue
  else if s.dtype.isObject ∧
      (s.distinctNonNull : ℚ) / (s.values.length : ℚ) ≤ 1 / 10 then
    .dictionary
  else if s.dtype.isNumeric ∧
      ((calcRuns s.values).length : ℚ) / (s.values.length : ℚ) ≤ 1 / 2 then
    .rle
  else .raw

/-! ## Tagged run values (RLE and SINGLE_VALUE payloads) -/

/-- A value carried by an RLE run or a SINGLE_VALUE payload. Float values
are carried as their raw 8-byte big-endian IEEE-754 image (`>d`): no claim
below depends on float arithmetic, only on framing. -/
inductive RunValue where
  | null
  | intVal (z : Int)
  | floatVal (bits : List Nat)
  | strVal (bytes : List Nat)
  deriving DecidableEq, Repr

/-- Serialization of one tagged value as `_write_rle` and
`_write_single_value` in `formats/compressed.py` emit it: tag byte 0 for
null (no value bytes), 1 plus `>q` for an integer, 2 plus the 8-byte float
image, 3 plus a `u8` length and the UTF-8 bytes for a string. -/
def writeRunValue : RunValue → List Nat
  | .null => [0]
  | .intVal z => 1 :: i64be z
  | .floatVal bits => 2 :: bits
  | .strVal bytes => 3 :: (bytes.length % 256) :: bytes

/-- Parse of one tagged value as `_read_rle` and `_read_single_value` in
`formats/compressed.py` consume it; an unknown tag raises `ValueError`. -/
def readRunValue (src : List Nat) :
    Except HybfError (RunValue × List Nat) :=
  match readU8 src with
  | .error e => .error e
  | .ok (tag, rest) =>
    if tag = 0 then .ok (.null, rest)
    else if tag = 1 then
      match readI64be rest with
      | .error e => .error e
      | .ok (z, rest2) => .ok (.intVal z, rest2)
    else if tag = 2 then
      if rest.length < 8 then .error .truncated
      else .ok (.floatVal (rest.take 8), rest.drop 8)
    else if tag = 3 then
      match readU8 rest with
      | .error e => .error e
      | .ok (len, rest2) =>
          if rest2.length < len then .error .truncated
          else .ok (.strVal (rest2.take len), rest2.drop len)
    else .error .invalidValue

/-! ## RLE / SINGLE_VALUE / NULL payload codecs (claims C7, C10) -/

/-- Embedding of `CompressedWriter._write_rle` given the computed runs:
a big-endian `u32` run count, then each run as a tagged value followed by a
big-endian `u32` run length. -/
def writeRLE (runs : List (RunValue × Nat)) : List Nat :=
  u32be runs.length ++
    runs.flatMap (fun r => writeRunValue r.1 ++ u32be r.2)

/-- Run-reading loop of `CompressedReader._read_rle`: reads `numRuns`
tagged values with their lengths and replicates each value. The fuel is
the declared run count, so it never runs out. -/
def readRLERuns (numRuns : Nat) (src : List Nat) :
    Except HybfError (List RunValue × List Nat) :=
  match numRuns with
  | 0 => .ok ([], src)
  | n + 1 =>
      match readRunValue src with
      | .error e => .error e
      | .ok (v, rest) =>
        match readU32be rest with
        | .error e => .error e
        | .ok (count, rest2) =>
          match readRLERuns n rest2 with
          | .error e => .error e
          | .ok (vs, rest3) => .ok (List.replicate count v ++ vs, rest3)

/-- Embedding of `CompressedReader._read_rle`: reads the run count and the
runs and materializes the concatenation. The declared `row_count` is
received but never consulted — the source performs no length check on RLE
payloads. -/
def readRLE (src : List Nat) (rowCount : Nat) :
    Except HybfError (List RunValue) :=
  match readU32be src with
  | .error e => .error e
  | .ok (numRuns, rest) =>
    match readRLERuns numRuns rest with
    | .error e => .error e
    | .ok (vs, _) => .ok vs

/-- Embedding of `CompressedWriter._write_single_value`: the tagged value
followed by the row count as a big-endian `u32`. -/
def writeSingleValue (v : RunValue) (length : Nat) : List Nat :=
  writeRunValue v ++ u32be length

/-- Embedding of `CompressedReader._read_single_value`: reads the tagged
value and the stored length, raises the length-mismatch `ValueError` when
the stored length differs from the declared row count, and otherwise
materializes `row_count` copies. -/
def readSingleValue (src : List Nat) (rowCount : Nat) :
    Except HybfError (List RunValue) :=
  match readRunValue src with
  | .error e => .error e
  | .ok (v, rest) =>
    match readU32be rest with
    | .error e => .error e
    | .ok (storedLength, _) =>
      if storedLength ≠ rowCount then .error .lengthMismatch
      else .ok (List.replicate rowCount v)

/-- Embedding of `CompressedWriter._write_null_column`: the row count as a
big-endian `u32` and nothing else. -/
def writeNullColumn (length : Nat) : List Nat := u32be length

/-- Embedding of `CompressedReader._read_null_column`: reads the stored
length, raises the length-mismatch `ValueError` on disagreement with the
declared row count, and otherwise materializes `row_count` nulls. -/
def readNullColumn (src : List Nat) (rowCount : Nat) :
    Except HybfError (List RunValue) :=
  match readU32be src with
  | .error e => .error e
  | .ok (storedLength, _) =>
    if storedLength ≠ rowCount then .error .lengthMismatch
    else .ok (List.replicate rowCount .null)

/-! ## Null bitmaps and little-endian bulk values -/

/-- Null bitmap as the writers build it: `⌈R/8⌉` bytes, bit `i % 8` of byte
`i / 8` set exactly when row `i` is null (LSB-first within each byte). -/
def nullBitmap {α : Type} (values : List (Option α)) : List Nat :=
  (List.range ((values.length + 7) / 8)).map (fun b =>
    (List.range 8).foldl (fun acc i =>
      if 8 * b + i < values.length ∧ (values.getD (8 * b + i) none).isNone
      then acc + 2 ^ i else acc) 0)

/-- Whether bit `i` of the bitmap is set (`null_bitmap[i // 8] & (1 << (i % 8))`
as the readers test it); fails like the `IndexError` when the byte is out of
range. -/
def bitmapTest (bitmap : List Nat) (i : Nat) : Except HybfError Bool :=
  match bitmap.get? (i / 8) with
  | none => .error .invalidValue
  | some byte => .ok (byte / 2 ^ (i % 8) % 2 = 1)

/-- Number of one bits of one bitmap byte (`bin(byte).count` of the digit
one, for a byte below 256). -/
def popCount8 (byte : Nat) : Nat :=
  (List.range 8).countP (fun i => byte / 2 ^ i % 2 = 1)

/-- Little-endian value of a byte list (first byte least significant). -/
def leVal (bytes : List Nat) : Nat :=
  bytes.foldr (fun b acc => acc * 256 + b) 0

/-- Signed reinterpretation of a `width`-byte little-endian image
(twos complement). -/
def leValSigned (width : Nat) (bytes : List Nat) : Int :=
  let n := leVal bytes
  if 2 ^ (8 * width - 1) ≤ n then (n : Int) - 2 ^ (8 * width) else (n : Int)

/-- Splits a byte list into consecutive `width`-byte element images, as
`np.frombuffer` frames a typed array. -/
def chunksOf (width : Nat) (bytes : List Nat) : List (List Nat) :=
  (List.range (bytes.length / width)).map
    (fun i => (bytes.drop (i * width)).take width)

/-! ## `formats/raw.py` — optimized numeric payloads (claim C3) -/

/-- The internal dtype enumeration of `read_optimized_numeric` and the
`dtype_map` of `write_optimized_numeric` in `formats/raw.py`. -/
inductive NumDtype where
  | uint8
  | uint16
  | uint32
  | int8
  | int16
  | int32
  | int64
  | float32
  | float64
  deriving DecidableEq, Repr

/-- Wire code of a dtype (`dtype_map` in `formats/raw.py`, 1 to 9). -/
def NumDtype.code : NumDtype → Nat
  | .uint8 => 1
  | .uint16 => 2
  | .uint32 => 3
  | .int8 => 4
  | .int16 => 5
  | .int32 => 6
  | .int64 => 7
  | .float32 => 8
  | .float64 => 9

/-- Byte width of one element of the dtype. -/
def NumDtype.itemsize : NumDtype → Nat
  | .uint8 => 1
  | .uint16 => 2
  | .uint32 => 4
  | .int8 => 1
  | .int16 => 2
  | .int32 => 4
  | .int64 => 8
  | .float32 => 4
  | .float64 => 8

/-- Whether the dtype kind is float (`dtype.kind == 'f'` in the source). -/
def NumDtype.isFloat : NumDtype → Bool
  | .float32 => true
  | .float64 => true
  | _ => false

/-- Whether the dtype is a signed integer. -/
def NumDtype.isSigned : NumDtype → Bool
  | .int8 => true
  | .int16 => true
  | .int32 => true
  | .int64 => true
  | _ => false

/-- Inverse of `NumDtype.code` (the reader's `dtype_map`); an unknown code
raises `KeyError`. -/
def NumDtype.ofCode (c : Nat) : Option NumDtype :=
  if c = 1 then some .uint8
  else if c = 2 then some .uint16
  else if c = 3 then some .uint32
  else if c = 4 then some .int8
  else if c = 5 then some .int16
  else if c = 6 then some .int32
  else if c = 7 then some .int64
  else if c = 8 then some .float32
  else if c = 9 then some .float64
  else none

/-- Value of one element image under the dtype. Integer dtypes decode their
little-endian (twos-complement) image; the float dtypes are carried as the
unsigned value of their bit image, since no claim depends on float
arithmetic. -/
def NumDtype.decode (dt : NumDtype) (bytes : List Nat) : Int :=
  if dt.isSigned then leValSigned dt.itemsize bytes else (leVal bytes : Int)

/-- Embedding of `write_optimized_numeric` in `formats/raw.py`: the dtype
code byte, then — only when the series has at least one null
(`if null_mask.any()`) — the null bitmap, then the non-null values in the
chosen width little-endian. Cells are integers; the integer dtypes cover
every claim below. -/
def writeOptimizedNumeric (dt : NumDtype) (values : List (Option Int)) :
    List Nat :=
  dt.code ::
    ((if values.any (fun v => v.isNone) then nullBitmap values else []) ++
      (values.filterMap id).flatMap (fun z => intLE dt.itemsize z))

/-- Row-filling loop of `read_optimized_numeric`: rows whose bitmap bit is
set become `NaN` for a float dtype and raise `TypeError` for an integer
dtype (`result[i] = None` on an integer `ndarray`); other rows take the
next decoded value, raising `IndexError` when the data array is
exhausted. -/
def fillRows (dt : NumDtype) (bitmap : List Nat) :
    Nat → Nat → List Int → Except HybfError (List (Option Int))
  | 0, _, _ => .ok []
  | rows + 1, i, vals => do
      let isNull ← bitmapTest bitmap i
      if isNull then
        if dt.isFloat then do
          let r ← fillRows dt bitmap rows (i + 1) vals
          .ok (none :: r)
        else .error .typeError
      else
        match vals with
        | [] => .error .invalidValue
        | v :: vs => do
            let r ← fillRows dt bitmap rows (i + 1) vs
            .ok (some v :: r)

/-- Embedding of `read_optimized_numeric` in `formats/raw.py`: reads the
dtype code, then unconditionally (`if dtype_code > 0` is always true) a
null bitmap of `⌈R/8⌉` bytes, computes the non-null count from the bitmap
popcount (`null_bitmap[-1]` raises `IndexError` on an empty bitmap),
reinterprets the following bytes as the packed non-null values, and fills
the rows. -/
def readOptimizedNumeric (src : List Nat) (rowCount : Nat) :
    Except HybfError (List (Option Int)) := do
  let (code, rest) ← readU8 src
  match NumDtype.ofCode code with
  | none => .error .invalidValue
  | some dt =>
      let bitmapSize := (rowCount + 7) / 8
      let bitmap := rest.take bitmapSize
      if bitmap.isEmpty then .error .invalidValue
      else
        let rest2 := rest.drop bitmapSize
        let nonNullCount := rowCount - (bitmap.map popCount8).sum
        let dataBytes := rest2.take (nonNullCount * dt.itemsize)
        let vals := (chunksOf dt.itemsize dataBytes).map dt.decode
        fillRows dt bitmap rowCount 0 vals

/-! ## `formats/minimal.py` — numeric columns (claim C2) -/

/-- Whether a logical type decodes signed little-endian integers. -/
def LogicalType.isSignedInt : LogicalType → Bool
  | .int32 => true
  | .int64 => true
  | _ => false

/-- Value of one element image under a logical type, mirroring
`NumDtype.decode`. -/
def LogicalType.decode (lt : LogicalType) (bytes : List Nat) : Int :=
  if lt.isSignedInt then leValSigned lt.itemsize bytes else (leVal bytes : Int)

/-- Storage width in bytes of a storage type as `to_storage_type` writes it. -/
def storageWidth (st : StorageType) : Nat := st.itemsize

/-- Embedding of `MinimalWriter._write_numeric_column` (with
`TypeConverter.to_storage_type` inlined): the data is converted to the
STORAGE dtype — `numpy.astype` wraps into the destination width — and then
either a null bitmap plus the non-null storage images (nullable) or all
storage images back to back (not nullable) are emitted. Cells are
integers; the bug this claim uncovers is integer-width asymmetry. -/
def minimalWriteNumericColumn (values : List (Option Int))
    (info : ColumnTypeInfo) : List Nat :=
  if info.nullable then
    nullBitmap values ++
      (values.filterMap id).flatMap
        (fun z => intLE (storageWidth info.storageType) z)
  else
    values.flatMap
      (fun v => intLE (storageWidth info.storageType) (v.getD 0))

/-- Embedding of `MinimalReader._read_numeric_column`: for a nullable
column, read a `⌈R/8⌉`-byte bitmap, count the non-null rows among the
first `R` bitmap bits, read that many elements of the LOGICAL width
(`col_info.logical_type.to_numpy()`), and fill rows (a null row is `NaN`
for a float logical type and a `TypeError` for an integer one); for a
non-nullable column, read `R` elements of the logical width directly.
Returns the decoded cells and the unconsumed stream. -/
def minimalReadNumericColumn (src : List Nat) (info : ColumnTypeInfo)
    (rowCount : Nat) :
    Except HybfError (List (Option Int) × List Nat) :=
  if info.nullable then do
    let bitmapSize := (rowCount + 7) / 8
    if src.length < bitmapSize then .error .truncated
    else
      let bitmap := src.take bitmapSize
      let rest := src.drop bitmapSize
      let nonNullCount := rowCount -
        (List.range rowCount).countP
          (fun i => (bitmap.getD (i / 8) 0) / 2 ^ (i % 8) % 2 = 1)
      let (dataBytes, rest2) ←
        BinaryReader.readArrayFn info.logicalType.itemsize nonNullCount rest
      let vals := (chunksOf info.logicalType.itemsize dataBytes).map
        info.logicalType.decode
      let dtRaw : NumDtype := if info.logicalType = .float32 then .float32
        else if info.logicalType = .float64 then .float64
        else if info.logicalType = .int32 then .int32
        else .int64
      let result ← fillRows dtRaw bitmap rowCount 0 vals
      .ok (result, rest2)
  else do
    let (dataBytes, rest2) ←
      BinaryReader.readArrayFn info.logicalType.itemsize rowCount src
    let vals := (chunksOf info.logicalType.itemsize dataBytes).map
      info.logicalType.decode
    .ok (vals.map some, rest2)

/-- Embedding of `TypeAnalyzer.analyze_series` for an integer-dtype column:
the logical type comes from the numpy dtype, `nullable` is set exactly when
a null is present, and the storage type comes from
`_analyze_integer_storage`. -/
def analyzeIntSeries (logical : LogicalType) (values : List (Option Int)) :
    ColumnTypeInfo :=
  { logicalType := logical
    storageType := analyzeIntegerStorage values
    nullable := values.any (fun v => v.isNone) }

/-! ## `formats/minimal.py` — the minimal container (claim C1)

The container is embedded for tables of integer-dtype columns (boolean
columns share the numeric path). The string column path plays no role in
the claim settled against this embedding. -/

/-- Modelled from the spec: the 4-byte MAGIC constant of
`hybf/constants.py`, which is absent from `src/`; the spec leaves the
concrete bytes to the implementation as long as writer and reader agree. -/
def MAGIC_NUMBER : List Nat := [72, 89, 66, 70]

/-- Modelled from the spec: the VERSION constant of `hybf/constants.py`;
the spec fixes the version byte to 1. -/
def VERSION : Nat := 1

/-- Inverse of `LogicalType.code` (`LogicalType(value)` in the reader);
an unknown byte raises `ValueError`. -/
def LogicalType.ofCode (c : Nat) : Option LogicalType :=
  if c = 1 then some .int32
  else if c = 2 then some .int64
  else if c = 3 then some .float32
  else if c = 4 then some .float64
  else if c = 5 then some .string
  else if c = 6 then some .boolean
  else none

/-- One column of an input table on the write side: a name (UTF-8 bytes),
the numpy-derived logical type, and the integer cells. -/
structure IntColumn where
  name : List Nat
  logical : LogicalType
  values : List (Option Int)

/-- An input table: the shared row count (`len(df)`) and the columns. -/
structure IntTable where
  rows : Nat
  cols : List IntColumn

/-- Embedding of `MinimalWriter.write` for integer-dtype columns: header
(MAGIC, version, format byte 1, big-endian column count), per-column
directory entries `{logical_type, name_length, name, nullable}`, the
big-endian `u32` row count, then each column payload via
`_write_numeric_column` with the storage type chosen by `TypeAnalyzer`. -/
def minimalWriteTable (t : IntTable) : List Nat :=
  let infos := t.cols.map (fun c => analyzeIntSeries c.logical c.values)
  MAGIC_NUMBER ++ [VERSION, 1] ++ u16be t.cols.length ++
    (t.cols.zip infos).flatMap (fun ci =>
      ci.2.logicalType.code :: (ci.1.name.length % 256) :: ci.1.name ++
        [if ci.2.nullable then 1 else 0]) ++
    u32be t.rows ++
    (t.cols.zip infos).flatMap
      (fun ci => minimalWriteNumericColumn ci.1.values ci.2)

/-- Directory-reading loop of `MinimalReader._read_column_definitions`:
per column a logical-type byte, a name length, the name bytes, and a
nullability byte (`struct.unpack` format `?`: zero is false, anything else
true). The reader leaves the storage type undetermined — it reconstructs
columns from the logical type alone. -/
def readColumnDefs (numCols : Nat) (src : List Nat) :
    Except HybfError (List (List Nat × LogicalType × Bool) × List Nat) :=
  match numCols with
  | 0 => .ok ([], src)
  | n + 1 => do
      let (code, rest) ← readU8 src
      match LogicalType.ofCode code with
      | none => .error .invalidValue
      | some lt => do
          let (nameLen, rest2) ← readU8 rest
          if rest2.length < nameLen then .error .truncated
          else do
            let name := rest2.take nameLen
            let rest3 := rest2.drop nameLen
            let (nullByte, rest4) ← readU8 rest3
            let (cols, rest5) ← readColumnDefs n rest4
            .ok ((name, lt, nullByte ≠ 0) :: cols, rest5)

/-- Column-payload loop of `MinimalReader.read`: decodes each directory
entry in order with `_read_numeric_column` (string columns take a separate
path not exercised by any claim). -/
def readMinimalColumns (defs : List (List Nat × LogicalType × Bool))
    (rowCount : Nat) (src : List Nat) :
    Except HybfError (List (List Nat × List (Option Int))) :=
  match defs with
  | [] => .ok []
  | (name, lt, nullable) :: rest =>
      if lt = .string then .error .invalidValue
      else do
        let info : ColumnTypeInfo :=
          { logicalType := lt, storageType := .string, nullable := nullable }
        let (vals, src2) ← minimalReadNumericColumn src info rowCount
        let cols ← readMinimalColumns rest rowCount src2
        .ok ((name, vals) :: cols)

/-- Embedding of `MinimalReader.read`: validates the magic bytes, the
version and the format byte, reads the directory and the row count, and
decodes every column. -/
def minimalReadTable (src : List Nat) :
    Except HybfError (Nat × List (List Nat × List (Option Int))) := do
  if src.take 4 ≠ MAGIC_NUMBER then .error .invalidMagic
  else do
    let rest := src.drop 4
    let (version, rest2) ← readU8 rest
    let (formatType, rest3) ← readU8 rest2
    if version ≠ VERSION then .error .unsupportedVersion
    else if formatType ≠ 1 then .error .wrongContainer
    else do
      let (numCols, rest4) ← readU16be rest3
      let (defs, rest5) ← readColumnDefs numCols rest4
      let (rowCount, rest6) ← readU32be rest5
      let cols ← readMinimalColumns defs rowCount rest6
      .ok (rowCount, cols)

/-! ## `core/encoding.py` — the bit-packed dictionary codec (claim C6) -/

/-- Bits per packed index:
`max(1, math.ceil(math.log2(dict_size + 1)))` — the extra symbol is the
null sentinel. `Nat.clog 2` is the ceiling base-2 logarithm. -/
def bitsNeeded (dictSize : Nat) : Nat := max 1 (Nat.clog 2 (dictSize + 1))

/-- Byte-emitting inner `while` of `BitPackedDictionaryWriter`: while at
least 8 bits are buffered, emit the top 8 (`(current >> (bits_in - 8)) &
0xFF`) and keep the rest (`current &= (1 << (bits_in - 8)) - 1`). The fuel
is the buffered bit count, which bounds the iteration count. -/
def flushAux : Nat → Nat → Nat → List Nat × Nat × Nat
  | 0, cur, nbits => ([], cur, nbits)
  | fuel + 1, cur, nbits =>
      if 8 ≤ nbits then
        let b := cur / 2 ^ (nbits - 8) % 256
        let r := flushAux fuel (cur % 2 ^ (nbits - 8)) (nbits - 8)
        (b :: r.1, r.2)
      else ([], cur, nbits)

/-- One iteration of the packing loop of
`BitPackedDictionaryWriter.write_dictionary`: shift the index into the
accumulator (`(current << bits) | index`, which is
`current * 2 ^ bits + index` for an in-range index) and drain complete
bytes. The state is (emitted bytes, accumulator, buffered bit count). -/
def packStep (bits : Nat) (st : List Nat × Nat × Nat) (idx : Nat) :
    List Nat × Nat × Nat :=
  let cur := st.2.1 * 2 ^ bits + idx
  let nbits := st.2.2 + bits
  let fl := flushAux nbits cur nbits
  (st.1 ++ fl.1, fl.2)

/-- Final flush of the packing loop: a leftover partial byte is
left-aligned (`current << (8 - bits_in)`) and emitted. -/
def packFinish (st : List Nat × Nat × Nat) : List Nat :=
  if 0 < st.2.2 then st.1 ++ [st.2.1 * 2 ^ (8 - st.2.2) % 256] else st.1

/-- The packed index bytes of `write_dictionary`: fold the per-index step
over the rows, then flush. -/
def packIndices (bits : Nat) (idxs : List Nat) : List Nat :=
  packFinish (idxs.foldl (packStep bits) ([], 0, 0))

/-- Row index as `write_dictionary` chooses it: the all-ones sentinel
`(1 << bits) - 1` for a null, otherwise the dictionary index of the value
(`reverse_dict` lookup; the dictionary entries are distinct by
construction from `value_counts`). -/
def dictIndex (entries : List (List Nat)) (bits : Nat) :
    Option (List Nat) → Nat
  | none => 2 ^ bits - 1
  | some s => entries.findIdx (fun e => e = s)

/-- Embedding of `BitPackedDictionaryWriter.write_dictionary`: a big-endian
`u16` dictionary size, the bits-per-index byte, the entries as
`{u8 length, bytes}`, then the packed row indexes. -/
def writeDictionary (entries : List (List Nat))
    (values : List (Option (List Nat))) : List Nat :=
  let bits := bitsNeeded entries.length
  u16be entries.length ++ [bits] ++
    entries.flatMap (fun e => (e.length % 256) :: e) ++
    packIndices bits (values.map (dictIndex entries bits))

/-- Entry-reading loop of `BitPackedDictionaryReader.read_dictionary`: per
entry a `u8` length then that many bytes (`buffer.read` returns what
remains, without its own length check). -/
def readDictEntries (count : Nat) (src : List Nat) :
    Except HybfError (List (List Nat) × List Nat) :=
  match count with
  | 0 => .ok ([], src)
  | n + 1 =>
      match readU8 src with
      | .error e => .error e
      | .ok (len, rest) =>
        match readDictEntries n (rest.drop len) with
        | .error e => .error e
        | .ok (es, rest2) => .ok (rest.take len :: es, rest2)

/-- Byte-pulling inner `while` of `read_dictionary`: while fewer than
`bits` bits are buffered and bytes remain, shift in the next byte. The
fuel bounds the iteration count by the remaining byte count. -/
def pullAux (packed : List Nat) :
    Nat → Nat → Nat → Nat → Nat → Nat × Nat × Nat
  | 0, bi, cur, nbits, _ => (bi, cur, nbits)
  | fuel + 1, bi, cur, nbits, bits =>
      if nbits < bits ∧ bi < packed.length then
        pullAux packed fuel (bi + 1) (cur * 256 + packed.getD bi 0)
          (nbits + 8) bits
      else (bi, cur, nbits)

/-- Row loop of `read_dictionary`: pull bytes, extract the top `bits` bits
(`(current >> shift) & mask` after the partial-byte adjustment
`current <<= bits - bits_in` when the stream ran dry), keep the low
`shift` bits, and recurse. Returns the raw indexes in row order. -/
def unpackRows (packed : List Nat) (bits : Nat) :
    Nat → Nat → Nat → Nat → List Nat
  | 0, _, _, _ => []
  | rows + 1, bi, cur, nbits =>
      let p := pullAux packed (packed.length - bi) bi cur nbits bits
      let bi2 := p.1
      let cur2 := p.2.1
      let n2 := p.2.2
      let cur3 := if n2 < bits then cur2 * 2 ^ (bits - n2) else cur2
      let shift := if n2 < bits then 0 else n2 - bits
      let idx := cur3 / 2 ^ shift % 2 ^ bits
      let cur4 := cur3 % 2 ^ shift
      idx :: unpackRows packed bits rows bi2 cur4 shift

/-- The unpacked row indexes of `read_dictionary`, starting from the empty
bit buffer. -/
def readIndices (packed : List Nat) (bits rows : Nat) : List Nat :=
  unpackRows packed bits rows 0 0 0

/-- Index-to-value loop of `read_dictionary`: the all-ones sentinel becomes
null, any other index selects its dictionary entry, and an out-of-range
index raises `KeyError`. -/
def decodeIndices (entries : List (List Nat)) (bits : Nat) :
    List Nat → Except HybfError (List (Option (List Nat)))
  | [] => .ok []
  | i :: is =>
      if i = 2 ^ bits - 1 then
        match decodeIndices entries bits is with
        | .error e => .error e
        | .ok vs => .ok (none :: vs)
      else
        match entries.get? i with
        | none => .error .invalidValue
        | some e =>
          match decodeIndices entries bits is with
          | .error er => .error er
          | .ok vs => .ok (some e :: vs)

/-- Embedding of `BitPackedDictionaryReader.read_dictionary`: reads the
dictionary size, the bits-per-index byte and the entries, takes
`⌈R·bits/8⌉` packed bytes, unpacks `R` indexes, and maps the all-ones
sentinel to null and any other index to its dictionary entry. -/
def readDictionary (src : List Nat) (rowCount : Nat) :
    Except HybfError (List (Option (List Nat))) :=
  match readU16be src with
  | .error e => .error e
  | .ok (dictSize, rest) =>
    match readU8 rest with
    | .error e => .error e
    | .ok (bits, rest2) =>
      match readDictEntries dictSize rest2 with
      | .error e => .error e
      | .ok (entries, rest3) =>
        let totalBytes := (rowCount * bits + 7) / 8
        let packed := rest3.take totalBytes
        decodeIndices entries bits (readIndices packed bits rowCount)

/-! ## Bit-stream denotation

The dictionary codec is characterized over the `List Bool` of bits it
emits: `natBits w v` is the `w`-bit big-endian image of `v`, `bitsVal`
its inverse, and `bytesBits` the MSB-first bit stream of a byte list. -/

/-- Bit `i` of `v` (0 = least significant). -/
def bitAt (v i : Nat) : Bool := decide (v / 2 ^ i % 2 = 1)

/-- The low `w` bits of `v`, most significant first. -/
def natBits : Nat → Nat → List Bool
  | 0, _ => []
  | w + 1, v => bitAt v w :: natBits w v

/-- Value of a most-significant-first bit list. -/
def bitsVal (bs : List Bool) : Nat :=
  bs.foldl (fun a b => 2 * a + (if b then 1 else 0)) 0

/-- All bits of a byte list in stream order, MSB-first within each byte. -/
def bytesBits (bytes : List Nat) : List Bool := bytes.flatMap (natBits 8)

/-! ## Frame round-trip lemmas -/

theorem divAdd (c r p : Nat) (hr : r < p) : (c * p + r) / p = c := by
  have hp : 0 < p := Nat.pos_of_ne_zero (by omega)
  rw [mul_comm, Nat.mul_add_div hp, Nat.div_eq_of_lt hr, add_zero]

theorem modAdd (c r p : Nat) (hr : r < p) : (c * p + r) % p = r := by
  rw [mul_comm, Nat.mul_add_mod, Nat.mod_eq_of_lt hr]

theorem readU16be_u16be (n : Nat) (h : n < 65536) (rest : List Nat) :
    readU16be (u16be n ++ rest) = .ok (n, rest) := by
  simp only [u16be, List.cons_append, List.nil_append, readU16be,
    Except.ok.injEq, Prod.mk.injEq, and_true]
  omega

theorem readU32be_u32be (n : Nat) (h : n < 4294967296) (rest : List Nat) :
    readU32be (u32be n ++ rest) = .ok (n, rest) := by
  simp only [u32be, List.cons_append, List.nil_append, readU32be,
    Except.ok.injEq, Prod.mk.injEq, and_true]
  omega

theorem readI64be_i64be (z : Int) (h1 : -9223372036854775808 ≤ z)
    (h2 : z < 9223372036854775808) (rest : List Nat) :
    readI64be (i64be z ++ rest) = .ok (z, rest) := by
  simp only [i64be, List.cons_append, List.nil_append, readI64be,
    Except.ok.injEq, Prod.mk.injEq, and_true]
  split <;> omega

/-- Structural well-formedness of a tagged run value, matching what the
writer can emit without a `struct.error`: a `>q`-range integer, an 8-byte
float image, a string of at most 255 bytes. -/
def RunValue.wf : RunValue → Prop
  | .null => True
  | .intVal z => -9223372036854775808 ≤ z ∧ z < 9223372036854775808
  | .floatVal bits => bits.length = 8
  | .strVal bytes => bytes.length < 256

theorem readRunValue_writeRunValue (v : RunValue) (hv : v.wf)
    (rest : List Nat) :
    readRunValue (writeRunValue v ++ rest) = .ok (v, rest) := by
  cases v with
  | null => rfl
  | intVal z =>
      obtain ⟨h1, h2⟩ := hv
      simp [writeRunValue, readRunValue, readU8, readI64be_i64be z h1 h2 rest]
  | floatVal bits =>
      simp only [RunValue.wf] at hv
      have hlen : ¬ (bits ++ rest).length < 8 := by
        simp [List.length_append, hv]
      have ht : (bits ++ rest).take 8 = bits := by
        rw [← hv]; exact List.take_left bits rest
      have hd : (bits ++ rest).drop 8 = rest := by
        rw [← hv]; exact List.drop_left bits rest
      simp [writeRunValue, readRunValue, readU8, hlen, ht, hd]
      omega
  | strVal bytes =>
      simp only [RunValue.wf] at hv
      have hmod : bytes.length % 256 = bytes.length := Nat.mod_eq_of_lt hv
      have hlen : ¬ (bytes ++ rest).length < bytes.length % 256 := by
        simp [List.length_append, hmod]
      have ht : (bytes ++ rest).take bytes.length = bytes :=
        List.take_left bytes rest
      have hd : (bytes ++ rest).drop bytes.length = rest :=
        List.drop_left bytes rest
      simp [writeRunValue, readRunValue, readU8, hmod, hlen, ht, hd]

/-- A series that is not all-null has a non-null value, so its `dropna`
is non-empty. -/
theorem nonNull_pos_of_not_all_none {α : Type} (s : SeriesModel α)
    (h : ¬ s.values.all (fun v => v.isNone) = true) :
    0 < s.nonNull.length := by
  simp only [List.all_eq_true, not_forall] at h
  obtain ⟨x, hx, hxn⟩ := h
  cases x with
  | none => simp at hxn
  | some a =>
      have ha : a ∈ s.values.filterMap id :=
        List.mem_filterMap.mpr ⟨some a, hx, rfl⟩
      exact List.length_pos_of_mem ha

theorem readRLERuns_writeRuns (runs : List (RunValue × Nat))
    (rest : List Nat)
    (h : ∀ r ∈ runs, r.1.wf ∧ r.2 < 4294967296) :
    readRLERuns runs.length
        (runs.flatMap (fun r => writeRunValue r.1 ++ u32be r.2) ++ rest) =
      .ok (runs.flatMap (fun r => List.replicate r.2 r.1), rest) := by
  induction runs with
  | nil => rfl
  | cons r rs ih =>
      obtain ⟨hwf, hlt⟩ := h r (List.mem_cons_self r rs)
      have hrest := ih (fun x hx => h x (List.mem_cons_of_mem r hx))
      simp only [List.flatMap_cons, List.append_assoc, List.length_cons,
        readRLERuns, readRunValue_writeRunValue r.1 hwf,
        readU32be_u32be r.2 hlt, hrest]

/-! ## Bit-packing correctness (claim C6) -/

theorem natBits_length (w v : Nat) : (natBits w v).length = w := by
  induction w generalizing v with
  | zero => rfl
  | succ w ih => simp [natBits, ih]

theorem bitsVal_from (a : Nat) (bs : List Bool) :
    bs.foldl (fun x b => 2 * x + (if b then 1 else 0)) a =
      a * 2 ^ bs.length + bitsVal bs := by
  induction bs generalizing a with
  | nil => simp [bitsVal]
  | cons b l ih =>
      simp only [List.foldl_cons, bitsVal, List.length_cons]
      rw [ih, ih (2 * 0 + (if b then 1 else 0))]
      cases b <;> simp <;> ring

theorem bitsVal_append (l1 l2 : List Bool) :
    bitsVal (l1 ++ l2) = bitsVal l1 * 2 ^ l2.length + bitsVal l2 := by
  simp only [bitsVal, List.foldl_append]
  rw [bitsVal_from]
  rfl

theorem bitsVal_cons (b : Bool) (l : List Bool) :
    bitsVal (b :: l) = (if b then 1 else 0) * 2 ^ l.length + bitsVal l := by
  have := bitsVal_append [b] l
  simpa [bitsVal] using this

theorem bitsVal_lt (bs : List Bool) : bitsVal bs < 2 ^ bs.length := by
  induction bs with
  | nil => simp [bitsVal]
  | cons b l ih =>
      rw [bitsVal_cons]
      simp only [List.length_cons, pow_succ]
      cases b <;> simp <;> omega

theorem natBits_val (w v : Nat) : bitsVal (natBits w v) = v % 2 ^ w := by
  induction w generalizing v with
  | zero => simp [natBits, bitsVal, Nat.mod_one]
  | succ w ih =>
      rw [show natBits (w + 1) v = bitAt v w :: natBits w v from rfl,
        bitsVal_cons, natBits_length, ih, Nat.mod_pow_succ]
      unfold bitAt
      rcases Nat.mod_two_eq_zero_or_one (v / 2 ^ w) with h | h <;> simp [h] <;> omega

theorem natBits_mod (w v : Nat) : natBits w (v % 2 ^ w) = natBits w v := by
  induction w generalizing v with
  | zero => rfl
  | succ w ih =>
      show bitAt (v % 2 ^ (w + 1)) w :: natBits w (v % 2 ^ (w + 1)) =
        bitAt v w :: natBits w v
      have h1 : v % 2 ^ w < 2 ^ w := Nat.mod_lt _ (Nat.pos_pow_of_pos w (by norm_num))
      have hp : 0 < 2 ^ w := Nat.pos_pow_of_pos w (by norm_num)
      have hb : bitAt (v % 2 ^ (w + 1)) w = bitAt v w := by
        have hx : (v % 2 ^ (w + 1)) / 2 ^ w % 2 = v / 2 ^ w % 2 := by
          rw [Nat.mod_pow_succ, Nat.add_mul_div_left _ _ hp, Nat.div_eq_of_lt h1]
          omega
        unfold bitAt
        rw [hx]
      have hrest : natBits w (v % 2 ^ (w + 1)) = natBits w v := by
        rw [← ih (v % 2 ^ (w + 1))]
        rw [Nat.mod_mod_of_dvd _ (by rw [pow_succ]; exact Dvd.intro 2 rfl)]
        exact ih v
      rw [hb, hrest]

theorem natBits_split (a b v : Nat) :
    natBits (a + b) v = natBits a (v / 2 ^ b) ++ natBits b v := by
  induction a generalizing v with
  | zero => simp [natBits]
  | succ a ih =>
      have he : a + 1 + b = (a + b) + 1 := by ring
      rw [he]
      show bitAt v (a + b) :: natBits (a + b) v = _
      have hb : bitAt v (a + b) = bitAt (v / 2 ^ b) a := by
        unfold bitAt
        rw [Nat.div_div_eq_div_mul, ← pow_add]
        congr 3
        ring
      rw [hb, ih]
      rfl

theorem natBits_zero_val (w : Nat) : natBits w 0 = List.replicate w false := by
  induction w with
  | zero => rfl
  | succ w ih =>
      show bitAt 0 w :: natBits w 0 = _
      rw [ih]
      simp [bitAt, List.replicate_succ]

theorem natBits_bitsVal (bs : List Bool) :
    natBits bs.length (bitsVal bs) = bs := by
  induction bs with
  | nil => rfl
  | cons b l ih =>
      show bitAt (bitsVal (b :: l)) l.length :: natBits l.length (bitsVal (b :: l)) = b :: l
      have hv := bitsVal_cons b l
      have hlt := bitsVal_lt l
      have hdiv : bitsVal (b :: l) / 2 ^ l.length = (if b then 1 else 0) := by
        rw [hv, divAdd _ _ _ hlt]
      have hmod : bitsVal (b :: l) % 2 ^ l.length = bitsVal l := by
        rw [hv, modAdd _ _ _ hlt]
      have hb : bitAt (bitsVal (b :: l)) l.length = b := by
        unfold bitAt
        rw [hdiv]
        cases b <;> simp
      have hrest : natBits l.length (bitsVal (b :: l)) = l := by
        rw [← natBits_mod, hmod, ih]
      rw [hb, hrest]

theorem bytesBits_append (l1 l2 : List Nat) :
    bytesBits (l1 ++ l2) = bytesBits l1 ++ bytesBits l2 := by
  simp [bytesBits]

theorem flushAux_spec (fuel : Nat) : ∀ cur nbits, nbits ≤ fuel → cur < 2 ^ nbits →
    bytesBits (flushAux fuel cur nbits).1 ++
      natBits (flushAux fuel cur nbits).2.2 (flushAux fuel cur nbits).2.1 =
      natBits nbits cur ∧
    (flushAux fuel cur nbits).2.2 = nbits % 8 ∧
    (flushAux fuel cur nbits).2.1 < 2 ^ (nbits % 8) := by
  induction fuel with
  | zero =>
      intro cur nbits hle hlt
      have h0 : nbits = 0 := by omega
      subst h0
      simp [flushAux, bytesBits]
      omega
  | succ fuel ih =>
      intro cur nbits hle hlt
      by_cases h8 : 8 ≤ nbits
      · have hsub : nbits - 8 + 8 = nbits := by omega
        have hcurlt : cur / 2 ^ (nbits - 8) < 256 := by
          have h2 : cur < 2 ^ (nbits - 8) * 2 ^ 8 := by
            rw [← pow_add, hsub]; exact hlt
          exact Nat.div_lt_of_lt_mul (by omega)
        have hmodlt : cur % 2 ^ (nbits - 8) < 2 ^ (nbits - 8) :=
          Nat.mod_lt _ (Nat.pos_pow_of_pos _ (by norm_num))
        obtain ⟨ih1, ih2, ih3⟩ := ih (cur % 2 ^ (nbits - 8)) (nbits - 8) (by omega) hmodlt
        have hred : flushAux (fuel + 1) cur nbits =
            (cur / 2 ^ (nbits - 8) % 256 ::
              (flushAux fuel (cur % 2 ^ (nbits - 8)) (nbits - 8)).1,
             (flushAux fuel (cur % 2 ^ (nbits - 8)) (nbits - 8)).2) := by
          simp [flushAux, h8]
        rw [hred]
        have hmod8 : nbits % 8 = (nbits - 8) % 8 := by omega
        have hm256 : cur / 2 ^ (nbits - 8) % 256 = cur / 2 ^ (nbits - 8) :=
          Nat.mod_eq_of_lt hcurlt
        refine ⟨?_, by simpa [hmod8] using ih2, by simpa [hmod8] using ih3⟩
        show natBits 8 (cur / 2 ^ (nbits - 8) % 256) ++
          (bytesBits (flushAux fuel (cur % 2 ^ (nbits - 8)) (nbits - 8)).1 ++ _) = _
        rw [hm256, ih1]
        have hsplit : natBits nbits cur =
            natBits 8 (cur / 2 ^ (nbits - 8)) ++ natBits (nbits - 8) cur := by
          have := natBits_split 8 (nbits - 8) cur
          rw [show 8 + (nbits - 8) = nbits from by omega] at this
          exact this
        rw [hsplit, natBits_mod]
      · have hred : flushAux (fuel + 1) cur nbits = ([], cur, nbits) := by
          simp [flushAux, h8]
        rw [hred]
        have : nbits % 8 = nbits := Nat.mod_eq_of_lt (by omega)
        simp [bytesBits, this, hlt]

theorem packStep_spec (bits : Nat) (st : List Nat × Nat × Nat) (idx : Nat)
    (hw : st.2.1 < 2 ^ st.2.2) (hi : idx < 2 ^ bits) :
    bytesBits (packStep bits st idx).1 ++
      natBits (packStep bits st idx).2.2 (packStep bits st idx).2.1 =
      (bytesBits st.1 ++ natBits st.2.2 st.2.1) ++ natBits bits idx ∧
    (packStep bits st idx).2.2 = (st.2.2 + bits) % 8 ∧
    (packStep bits st idx).2.1 < 2 ^ (packStep bits st idx).2.2 := by
  obtain ⟨out, cur, n⟩ := st
  simp only at hw
  have hcur : cur * 2 ^ bits + idx < 2 ^ (n + bits) := by
    calc cur * 2 ^ bits + idx < cur * 2 ^ bits + 2 ^ bits := by omega
    _ = (cur + 1) * 2 ^ bits := by ring
    _ ≤ 2 ^ n * 2 ^ bits := by
        exact Nat.mul_le_mul_right _ (by omega)
    _ = 2 ^ (n + bits) := by rw [← pow_add]
  obtain ⟨hf1, hf2, hf3⟩ :=
    flushAux_spec (n + bits) (cur * 2 ^ bits + idx) (n + bits) le_rfl hcur
  have hd : natBits (n + bits) (cur * 2 ^ bits + idx) =
      natBits n cur ++ natBits bits idx := by
    rw [natBits_split n bits, divAdd _ _ _ hi, ← natBits_mod bits,
      modAdd _ _ _ hi]
  have hps : packStep bits (out, cur, n) idx =
      (out ++ (flushAux (n + bits) (cur * 2 ^ bits + idx) (n + bits)).1,
       (flushAux (n + bits) (cur * 2 ^ bits + idx) (n + bits)).2) := rfl
  rw [hps]
  dsimp only
  refine ⟨?_, hf2, ?_⟩
  · rw [bytesBits_append, List.append_assoc, hf1, hd]
    simp [List.append_assoc]
  · rw [hf2]
    exact hf3

theorem packFold_spec (bits : Nat) (idxs : List Nat) :
    ∀ st : List Nat × Nat × Nat, st.2.1 < 2 ^ st.2.2 → st.2.2 < 8 →
    (∀ i ∈ idxs, i < 2 ^ bits) →
    bytesBits (idxs.foldl (packStep bits) st).1 ++
      natBits (idxs.foldl (packStep bits) st).2.2
        (idxs.foldl (packStep bits) st).2.1 =
      (bytesBits st.1 ++ natBits st.2.2 st.2.1) ++ idxs.flatMap (natBits bits) ∧
    (idxs.foldl (packStep bits) st).2.2 = (st.2.2 + bits * idxs.length) % 8 ∧
    (idxs.foldl (packStep bits) st).2.1 <
      2 ^ (idxs.foldl (packStep bits) st).2.2 := by
  induction idxs with
  | nil =>
      intro st hw hn _
      refine ⟨by simp, ?_, hw⟩
      simp only [List.foldl_nil, List.length_nil, Nat.mul_zero, Nat.add_zero]
      omega
  | cons i is ih =>
      intro st hw hn hall
      have hi : i < 2 ^ bits := hall i (List.mem_cons_self i is)
      obtain ⟨hs1, hs2, hs3⟩ := packStep_spec bits st i hw hi
      have hn2 : (packStep bits st i).2.2 < 8 := by omega
      obtain ⟨ht1, ht2, ht3⟩ := ih (packStep bits st i) hs3 hn2
        (fun j hj => hall j (List.mem_cons_of_mem i hj))
      refine ⟨?_, ?_, ht3⟩
      · simp only [List.foldl_cons, List.flatMap_cons]
        rw [ht1, hs1]
        simp [List.append_assoc]
      · simp only [List.foldl_cons, List.length_cons]
        rw [ht2, hs2, Nat.mod_add_mod]
        congr 1
        ring

theorem packFinish_spec (st : List Nat × Nat × Nat)
    (hw : st.2.1 < 2 ^ st.2.2) (hn : st.2.2 < 8) :
    bytesBits (packFinish st) =
      (bytesBits st.1 ++ natBits st.2.2 st.2.1) ++
        List.replicate ((8 - st.2.2) % 8) false := by
  obtain ⟨out, cur, n⟩ := st
  simp only at hw hn
  by_cases h0 : 0 < n
  · have hred : packFinish (out, cur, n) =
        out ++ [cur * 2 ^ (8 - n) % 256] := by
      simp [packFinish, h0]
    have hlt : cur * 2 ^ (8 - n) < 256 := by
      have hp : (0 : Nat) < 2 ^ (8 - n) := Nat.pos_pow_of_pos _ (by norm_num)
      have h1 : cur * 2 ^ (8 - n) < 2 ^ n * 2 ^ (8 - n) :=
        mul_lt_mul_of_pos_right hw hp
      have h2 : 2 ^ n * 2 ^ (8 - n) = 256 := by
        rw [← pow_add, show n + (8 - n) = 8 from by omega]
        norm_num
      omega
    have hm : cur * 2 ^ (8 - n) % 256 = cur * 2 ^ (8 - n) :=
      Nat.mod_eq_of_lt hlt
    have h8 : natBits 8 (cur * 2 ^ (8 - n)) =
        natBits n cur ++ List.replicate (8 - n) false := by
      have hs := natBits_split n (8 - n) (cur * 2 ^ (8 - n))
      rw [show n + (8 - n) = 8 from by omega] at hs
      rw [hs]
      congr 1
      · congr 1
        rw [Nat.mul_div_cancel _ (Nat.pos_pow_of_pos _ (by norm_num))]
      · rw [← natBits_mod, Nat.mul_mod_left, natBits_zero_val]
    rw [hred, bytesBits_append]
    have hone : bytesBits [cur * 2 ^ (8 - n) % 256] =
        natBits 8 (cur * 2 ^ (8 - n)) := by
      simp [bytesBits, hm]
    rw [hone, h8, show (8 - n) % 8 = 8 - n from by omega]
    simp [List.append_assoc]
  · have hn0 : n = 0 := by omega
    subst hn0
    simp [packFinish, natBits, bytesBits]

theorem bytesBits_length (bytes : List Nat) :
    (bytesBits bytes).length = 8 * bytes.length := by
  induction bytes with
  | nil => rfl
  | cons b bs ih =>
      simp only [bytesBits, List.flatMap_cons, List.length_append,
        natBits_length, List.length_cons] at ih ⊢
      omega

theorem flatMapBits_length (bits : Nat) (idxs : List Nat) :
    (idxs.flatMap (natBits bits)).length = bits * idxs.length := by
  induction idxs with
  | nil => simp
  | cons i is ih =>
      simp only [List.flatMap_cons, List.length_append, natBits_length, ih,
        List.length_cons]
      ring

theorem packIndices_spec (bits : Nat) (idxs : List Nat)
    (h : ∀ i ∈ idxs, i < 2 ^ bits) :
    bytesBits (packIndices bits idxs) =
      idxs.flatMap (natBits bits) ++
        List.replicate ((8 - (bits * idxs.length) % 8) % 8) false ∧
    (packIndices bits idxs).length = (bits * idxs.length + 7) / 8 := by
  obtain ⟨hf1, hf2, hf3⟩ :=
    packFold_spec bits idxs ([], 0, 0) (by simp) (by norm_num) h
  have hfin := packFinish_spec (idxs.foldl (packStep bits) ([], 0, 0))
    hf3 (by omega)
  have hden : bytesBits (packIndices bits idxs) =
      idxs.flatMap (natBits bits) ++
        List.replicate ((8 - (bits * idxs.length) % 8) % 8) false := by
    unfold packIndices
    rw [hfin, hf1, hf2]
    simp only [bytesBits, List.flatMap_nil, natBits, List.nil_append]
    congr 2
    omega
  refine ⟨hden, ?_⟩
  have hlen := congrArg List.length hden
  rw [bytesBits_length] at hlen
  simp only [List.length_append, flatMapBits_length, List.length_replicate]
    at hlen
  omega

theorem bytesBits_drop (packed : List Nat) :
    ∀ bi, (bytesBits packed).drop (8 * bi) = bytesBits (packed.drop bi) := by
  induction packed with
  | nil => intro bi; simp [bytesBits]
  | cons b bs ih =>
      intro bi
      cases bi with
      | zero => simp
      | succ k =>
          have h1 : bytesBits (b :: bs) = natBits 8 b ++ bytesBits bs := rfl
          have h2 : 8 * (k + 1) = (natBits 8 b).length + 8 * k := by
            rw [natBits_length]; ring
          rw [h1, h2, List.drop_append, ih k]
          rfl

theorem pullAux_spec (packed : List Nat) (bits : Nat)
    (hbytes : ∀ b ∈ packed, b < 256) :
    ∀ fuel, ∀ bi cur nbits, packed.length - bi ≤ fuel → bi ≤ packed.length →
    nbits ≤ 8 * bi → cur < 2 ^ nbits →
    natBits nbits cur = ((bytesBits packed).drop (8 * bi - nbits)).take nbits →
    (pullAux packed fuel bi cur nbits bits).1 ≤ packed.length ∧
    (pullAux packed fuel bi cur nbits bits).2.2 ≤
      8 * (pullAux packed fuel bi cur nbits bits).1 ∧
    (pullAux packed fuel bi cur nbits bits).2.1 <
      2 ^ (pullAux packed fuel bi cur nbits bits).2.2 ∧
    8 * (pullAux packed fuel bi cur nbits bits).1 -
      (pullAux packed fuel bi cur nbits bits).2.2 = 8 * bi - nbits ∧
    natBits (pullAux packed fuel bi cur nbits bits).2.2
        (pullAux packed fuel bi cur nbits bits).2.1 =
      ((bytesBits packed).drop (8 * bi - nbits)).take
        (pullAux packed fuel bi cur nbits bits).2.2 ∧
    (bits ≤ (pullAux packed fuel bi cur nbits bits).2.2 ∨
      (pullAux packed fuel bi cur nbits bits).1 = packed.length) := by
  intro fuel
  induction fuel with
  | zero =>
      intro bi cur nbits hfuel hbi hnb hcur hwin
      have hbieq : bi = packed.length := by omega
      exact ⟨hbi, hnb, hcur, rfl, hwin, Or.inr hbieq⟩
  | succ fuel ih =>
      intro bi cur nbits hfuel hbi hnb hcur hwin
      by_cases hc : nbits < bits ∧ bi < packed.length
      · have hred : pullAux packed (fuel + 1) bi cur nbits bits =
            pullAux packed fuel (bi + 1) (cur * 256 + packed.getD bi 0)
              (nbits + 8) bits := by
          simp [pullAux, hc]
        have hblt : packed.getD bi 0 < 256 := by
          have hmem : packed.getD bi 0 ∈ packed := by
            rw [List.getD_eq_get packed 0 hc.2]
            exact List.get_mem packed _ _
          exact hbytes _ hmem
        have hcur2 : cur * 256 + packed.getD bi 0 < 2 ^ (nbits + 8) := by
          have : cur * 256 + packed.getD bi 0 < (cur + 1) * 256 := by omega
          calc cur * 256 + packed.getD bi 0 < (cur + 1) * 256 := this
          _ ≤ 2 ^ nbits * 256 := by
              exact Nat.mul_le_mul_right _ (by omega)
          _ = 2 ^ (nbits + 8) := by rw [pow_add]; norm_num
        have hwin2 : natBits (nbits + 8) (cur * 256 + packed.getD bi 0) =
            ((bytesBits packed).drop (8 * (bi + 1) - (nbits + 8))).take
              (nbits + 8) := by
          have hpos : 8 * (bi + 1) - (nbits + 8) = 8 * bi - nbits := by omega
          rw [hpos]
          have hsplitv : natBits (nbits + 8) (cur * 256 + packed.getD bi 0) =
              natBits nbits cur ++ natBits 8 (packed.getD bi 0) := by
            have h28 : (2 : Nat) ^ 8 = 256 := by norm_num
            rw [natBits_split nbits 8, h28, divAdd _ _ _ hblt,
              ← natBits_mod 8, h28, modAdd _ _ _ hblt]
          rw [hsplitv]
          have htk : ((bytesBits packed).drop (8 * bi - nbits)).take (nbits + 8) =
              ((bytesBits packed).drop (8 * bi - nbits)).take nbits ++
                ((bytesBits packed).drop (8 * bi)).take 8 := by
            rw [List.take_add, List.drop_drop,
              show 8 * bi - nbits + nbits = 8 * bi from by omega]
          rw [htk, ← hwin]
          congr 1
          have hdb : (bytesBits packed).drop (8 * bi) =
              bytesBits (packed.drop bi) := bytesBits_drop packed bi
          have hdcons : packed.drop bi =
              packed.getD bi 0 :: packed.drop (bi + 1) := by
            rw [List.getD_eq_get packed 0 hc.2]
            exact List.drop_eq_get_cons hc.2
          rw [hdb, hdcons]
          have hbb : bytesBits (packed.getD bi 0 :: packed.drop (bi + 1)) =
              natBits 8 (packed.getD bi 0) ++ bytesBits (packed.drop (bi + 1)) :=
            rfl
          rw [hbb]
          have htl := List.take_left (natBits 8 (packed.getD bi 0))
            (bytesBits (packed.drop (bi + 1)))
          rw [natBits_length] at htl
          exact htl.symm
        have := ih (bi + 1) (cur * 256 + packed.getD bi 0) (nbits + 8)
          (by omega) (by omega) (by omega) hcur2 hwin2
        rw [hred]
        refine ⟨this.1, this.2.1, this.2.2.1, ?_, ?_, this.2.2.2.2.2⟩
        · rw [this.2.2.2.1]; omega
        · rw [this.2.2.2.2.1,
            show 8 * (bi + 1) - (nbits + 8) = 8 * bi - nbits from by omega]
      · have hred : pullAux packed (fuel + 1) bi cur nbits bits =
            (bi, cur, nbits) := by
          simp only [pullAux, hc, if_false, reduceIte]
        rw [hred]
        refine ⟨hbi, hnb, hcur, rfl, hwin, ?_⟩
        dsimp only
        omega

theorem unpackRows_spec (packed : List Nat) (bits : Nat)
    (hbytes : ∀ b ∈ packed, b < 256) (hb : 0 < bits) :
    ∀ rows, ∀ bi cur nbits, bi ≤ packed.length → nbits ≤ 8 * bi →
    cur < 2 ^ nbits →
    natBits nbits cur = ((bytesBits packed).drop (8 * bi - nbits)).take nbits →
    (8 * bi - nbits) + rows * bits ≤ 8 * packed.length →
    unpackRows packed bits rows bi cur nbits =
      (List.range rows).map
        (fun j => bitsVal (((bytesBits packed).drop
          ((8 * bi - nbits) + j * bits)).take bits)) := by
  intro rows
  induction rows with
  | zero => intro bi cur nbits _ _ _ _ _; simp [unpackRows]
  | succ rows ih =>
      intro bi cur nbits hbi hnb hcur hwin hav
      have hmul : (rows + 1) * bits = rows * bits + bits := by ring
      obtain ⟨hp1, hp2, hp3, hp4, hp5, hp6⟩ := pullAux_spec packed bits hbytes
        (packed.length - bi) bi cur nbits le_rfl hbi hnb hcur hwin
      have hBlen : (bytesBits packed).length = 8 * packed.length := by
        rw [bytesBits_length]
      have hb1 : bits ≤ (rows + 1) * bits :=
        Nat.le_mul_of_pos_left bits (by omega)
      have hge : bits ≤ (pullAux packed (packed.length - bi) bi cur nbits bits).2.2 := by
        rcases hp6 with h | h
        · exact h
        · rw [h] at hp4
          omega
      set P := pullAux packed (packed.length - bi) bi cur nbits bits with hP
      set pos := 8 * bi - nbits with hpos
      have hsplitw : natBits P.2.2 P.2.1 =
          natBits bits (P.2.1 / 2 ^ (P.2.2 - bits)) ++
            natBits (P.2.2 - bits) P.2.1 := by
        have := natBits_split bits (P.2.2 - bits) P.2.1
        rw [show bits + (P.2.2 - bits) = P.2.2 from by omega] at this
        exact this
      have htop : P.2.1 / 2 ^ (P.2.2 - bits) < 2 ^ bits := by
        apply Nat.div_lt_of_lt_mul
        have hpw : 2 ^ (P.2.2 - bits) * 2 ^ bits = 2 ^ P.2.2 := by
          rw [← pow_add]
          congr 1
          omega
        rw [hpw]
        exact hp3
      have hposb : pos + bits ≤ (bytesBits packed).length := by
        rw [hBlen]
        omega
      have htksplit : ((bytesBits packed).drop pos).take P.2.2 =
          ((bytesBits packed).drop pos).take bits ++
            ((bytesBits packed).drop (pos + bits)).take (P.2.2 - bits) := by
        conv_rhs => rw [← List.drop_drop]
        rw [← List.take_add]
        congr 1
        omega
      have hlen1 : (natBits bits (P.2.1 / 2 ^ (P.2.2 - bits))).length =
          (((bytesBits packed).drop pos).take bits).length := by
        rw [natBits_length, List.length_take, List.length_drop]
        omega
      have hinj := List.append_inj
        (by rw [← hsplitw, ← htksplit]; exact hp5) hlen1
      have hidxeq : P.2.1 / 2 ^ (P.2.2 - bits) % 2 ^ bits =
          bitsVal (((bytesBits packed).drop pos).take bits) := by
        rw [← hinj.1, natBits_val]
      have hcur4 : P.2.1 % 2 ^ (P.2.2 - bits) < 2 ^ (P.2.2 - bits) :=
        Nat.mod_lt _ (Nat.pos_pow_of_pos _ (by norm_num))
      have hwin4 : natBits (P.2.2 - bits) (P.2.1 % 2 ^ (P.2.2 - bits)) =
          ((bytesBits packed).drop (8 * P.1 - (P.2.2 - bits))).take
            (P.2.2 - bits) := by
        rw [natBits_mod, hinj.2]
        congr 2
        omega
      have hav4 : (8 * P.1 - (P.2.2 - bits)) + rows * bits ≤
          8 * packed.length := by
        have h1 : 8 * P.1 - (P.2.2 - bits) = pos + bits := by omega
        rw [h1]
        omega
      have hih := ih P.1 (P.2.1 % 2 ^ (P.2.2 - bits)) (P.2.2 - bits)
        hp1 (by omega) hcur4 hwin4 hav4
      have hred : unpackRows packed bits (rows + 1) bi cur nbits =
          (P.2.1 / 2 ^ (P.2.2 - bits) % 2 ^ bits) ::
            unpackRows packed bits rows P.1 (P.2.1 % 2 ^ (P.2.2 - bits))
              (P.2.2 - bits) := by
        show (let p := P; let bi2 := p.1; let cur2 := p.2.1; let n2 := p.2.2;
          let cur3 := if n2 < bits then cur2 * 2 ^ (bits - n2) else cur2;
          let shift := if n2 < bits then 0 else n2 - bits;
          let idx := cur3 / 2 ^ shift % 2 ^ bits;
          let cur4 := cur3 % 2 ^ shift;
          idx :: unpackRows packed bits rows bi2 cur4 shift) = _
        have hnlt : ¬ P.2.2 < bits := by omega
        simp only [hnlt, if_false, reduceIte]
      rw [hred, hih, List.range_succ_eq_map, List.map_cons, List.map_map]
      congr 1
      · rw [hidxeq]
        congr 3
        omega
      · apply List.map_congr_left
        intro j hj
        simp only [Function.comp_apply]
        have h1 : 8 * P.1 - (P.2.2 - bits) = pos + bits := by omega
        rw [h1]
        have h2 : pos + bits + j * bits = pos + j.succ * bits := by
          simp only [Nat.succ_eq_add_one]
          ring
        rw [h2]

theorem flushAux_bytes : ∀ fuel cur n, ∀ b ∈ (flushAux fuel cur n).1, b < 256 := by
  intro fuel
  induction fuel with
  | zero => intro cur n b hb; simp [flushAux] at hb
  | succ fuel ih =>
      intro cur n b hb
      by_cases h8 : 8 ≤ n
      · simp only [flushAux, h8, if_true, reduceIte, List.mem_cons] at hb
        rcases hb with rfl | hb
        · exact Nat.mod_lt _ (by norm_num)
        · exact ih _ _ b hb
      · simp [flushAux, h8] at hb

theorem packFold_bytes (bits : Nat) (idxs : List Nat) :
    ∀ st : List Nat × Nat × Nat, (∀ b ∈ st.1, b < 256) →
    ∀ b ∈ (idxs.foldl (packStep bits) st).1, b < 256 := by
  induction idxs with
  | nil => intro st hst b hb; exact hst b hb
  | cons i is ih =>
      intro st hst b hb
      apply ih (packStep bits st i) _ b hb
      intro c hc
      have : packStep bits st i =
          (st.1 ++ (flushAux (st.2.2 + bits) (st.2.1 * 2 ^ bits + i)
            (st.2.2 + bits)).1,
           (flushAux (st.2.2 + bits) (st.2.1 * 2 ^ bits + i)
            (st.2.2 + bits)).2) := rfl
      rw [this] at hc
      simp only [List.mem_append] at hc
      rcases hc with hc | hc
      · exact hst c hc
      · exact flushAux_bytes _ _ _ c hc

theorem packIndices_bytes (bits : Nat) (idxs : List Nat) :
    ∀ b ∈ packIndices bits idxs, b < 256 := by
  intro b hb
  unfold packIndices packFinish at hb
  by_cases h0 : 0 < (idxs.foldl (packStep bits) ([], 0, 0)).2.2
  · simp only [h0, if_true, reduceIte, List.mem_append, List.mem_singleton]
      at hb
    rcases hb with hb | rfl
    · exact packFold_bytes bits idxs ([], 0, 0) (by simp) b hb
    · exact Nat.mod_lt _ (by norm_num)
  · simp only [h0, if_false, reduceIte] at hb
    exact packFold_bytes bits idxs ([], 0, 0) (by simp) b hb

theorem flatMap_natBits_slice (bits : Nat) :
    ∀ idxs : List Nat, ∀ j, j < idxs.length →
    ((idxs.flatMap (natBits bits)).drop (j * bits)).take bits =
      natBits bits (idxs.getD j 0) := by
  intro idxs
  induction idxs with
  | nil => intro j hj; simp at hj
  | cons i is ih =>
      intro j hj
      cases j with
      | zero =>
          simp only [List.flatMap_cons, Nat.zero_mul, List.drop_zero,
            List.getD, List.getElem?_cons_zero, Option.getD_some]
          have := List.take_left (natBits bits i) (is.flatMap (natBits bits))
          rw [natBits_length] at this
          simpa using this
      | succ k =>
          simp only [List.flatMap_cons]
          have h1 : (k + 1) * bits = (natBits bits i).length + k * bits := by
            rw [natBits_length]
            ring
          rw [h1, List.drop_append, ih k (by simpa using hj)]
          rfl

theorem map_getD_range {α : Type} (l : List α) (d : α) :
    (List.range l.length).map (fun j => l.getD j d) = l := by
  induction l with
  | nil => rfl
  | cons x xs ih =>
      rw [show (x :: xs).length = xs.length + 1 from rfl,
        List.range_succ_eq_map, List.map_cons, List.map_map]
      have htail : (List.range xs.length).map
          ((fun j => (x :: xs).getD j d) ∘ Nat.succ) =
          (List.range xs.length).map (fun j => xs.getD j d) :=
        List.map_congr_left (fun j hj => rfl)
      rw [htail, ih]
      rfl

theorem getD_mem {l : List Nat} {j : Nat} (hj : j < l.length) :
    l.getD j 0 ∈ l := by
  rw [List.getD_eq_get l 0 hj]
  exact List.get_mem l _ _

theorem readIndices_packIndices (bits : Nat) (idxs : List Nat) (hb : 0 < bits)
    (h : ∀ i ∈ idxs, i < 2 ^ bits) :
    readIndices (packIndices bits idxs) bits idxs.length = idxs := by
  obtain ⟨hden, hlen⟩ := packIndices_spec bits idxs h
  have hbytes := packIndices_bytes bits idxs
  have hcomm : idxs.length * bits = bits * idxs.length := by ring
  have hav : 8 * 0 - 0 + idxs.length * bits ≤
      8 * (packIndices bits idxs).length := by
    rw [hlen]
    omega
  have hspec := unpackRows_spec (packIndices bits idxs) bits hbytes hb
    idxs.length 0 0 0 (Nat.zero_le _) (by omega) (by norm_num)
    (by simp [natBits]) hav
  show unpackRows (packIndices bits idxs) bits idxs.length 0 0 0 = idxs
  rw [hspec]
  have hflatlen : (idxs.flatMap (natBits bits)).length = bits * idxs.length :=
    flatMapBits_length bits idxs
  have hstep : ∀ j ∈ List.range idxs.length,
      bitsVal (((bytesBits (packIndices bits idxs)).drop
        (8 * 0 - 0 + j * bits)).take bits) = idxs.getD j 0 := by
    intro j hj
    have hjl : j < idxs.length := List.mem_range.mp hj
    have hjb : j * bits ≤ (idxs.flatMap (natBits bits)).length := by
      rw [hflatlen]
      have : j * bits ≤ idxs.length * bits :=
        Nat.mul_le_mul_right _ (by omega)
      omega
    rw [hden]
    have hd : ((idxs.flatMap (natBits bits) ++
        List.replicate ((8 - bits * idxs.length % 8) % 8) false).drop
          (8 * 0 - 0 + j * bits)) =
        (idxs.flatMap (natBits bits)).drop (j * bits) ++
          List.replicate ((8 - bits * idxs.length % 8) % 8) false := by
      rw [show 8 * 0 - 0 + j * bits = j * bits from by omega]
      exact List.drop_append_of_le_length hjb
    rw [hd]
    have htl : ((idxs.flatMap (natBits bits)).drop (j * bits)).length =
        bits * idxs.length - j * bits := by
      rw [List.length_drop, hflatlen]
    have hbits_le : bits ≤ ((idxs.flatMap (natBits bits)).drop
        (j * bits)).length := by
      rw [htl]
      have h1 : (j + 1) * bits ≤ idxs.length * bits :=
        Nat.mul_le_mul_right _ (by omega)
      have h2 : (j + 1) * bits = j * bits + bits := by ring
      omega
    rw [List.take_append_of_le_length hbits_le,
      flatMap_natBits_slice bits idxs j hjl, natBits_val,
      Nat.mod_eq_of_lt (h _ (getD_mem hjl))]
  rw [List.map_congr_left hstep]
  exact map_getD_range idxs 0

/-! ## Claim theorems -/

/-- Claim C8 (confirmed). The factory computes the estimate as the data
size plus the summed column-name byte lengths plus 8 plus twice the column
count, and selects the minimal container exactly when the estimate is at
most 4096 bytes. -/
theorem c8_factory_threshold (d : DFStats) :
    FormatFactory.estimatedSize d =
      d.memUsageDeepSum + (d.colNames.map List.length).sum + 8 +
        2 * d.colNames.length ∧
    (FormatFactory.createWriter d = .minimal ↔
      FormatFactory.estimatedSize d ≤ 4096) := by
  refine ⟨rfl, ?_⟩
  unfold FormatFactory.createWriter
  by_cases h : FormatFactory.estimatedSize d ≤ 4096 <;> simp [h]

/-- Claim C9 (corrected), counterexample: `BinaryReader.read_bytes` asked
for 5 bytes of a 2-byte source returns the 2-byte short result instead of
failing with a truncation error. -/
theorem c9_read_bytes_short : BinaryReader.readBytesFn [1, 2] 5 = [1, 2] ∧
    ([1, 2] : List Nat).length < 5 := ⟨rfl, by decide⟩

/-- Claim C9 (corrected), amended: the typed-array helper
`BinaryReader.read_array` fails with the truncation error exactly when
fewer bytes remain than `itemsize * count`, while `read_bytes` returns
`source.read(count)` unchecked — the short prefix when fewer bytes
remain. -/
theorem c9_truncation_amended (w c : Nat) (src : List Nat) :
    BinaryReader.readArrayFn w c src =
      (if src.length < w * c then .error .truncated
        else .ok (src.take (w * c), src.drop (w * c))) ∧
    BinaryReader.readBytesFn src c = src.take c :=
  ⟨rfl, rfl⟩

/-- Claim C4 (confirmed). The selector agrees with the claimed decision
cascade — NULL, then SINGLE_VALUE, then DICTIONARY, then RLE, then RAW —
and never picks RLE for an object (string) column nor DICTIONARY for a
numeric column. -/
theorem c4_selector_decision {α : Type} [DecidableEq α] (s : SeriesModel α) :
    selectStrategy s = claimSelect s ∧
    (s.dtype.isObject = true → selectStrategy s ≠ .rle) ∧
    (s.dtype.isNumeric = true → selectStrategy s ≠ .dictionary) := by
  refine ⟨?_, ?_, ?_⟩
  · by_cases h1 : s.values.all (fun v => v.isNone)
    · simp [selectStrategy, claimSelect, h1]
    · have hp := nonNull_pos_of_not_all_none s h1
      simp [selectStrategy, claimSelect, h1, hp]
  · intro hobj
    have hnum : s.dtype.isNumeric = false := by
      cases hd : s.dtype <;> simp_all [PDtype.isObject, PDtype.isNumeric]
    unfold selectStrategy
    split_ifs <;> simp_all
  · intro hnum
    have hobj : s.dtype.isObject = false := by
      cases hd : s.dtype <;> simp_all [PDtype.isObject, PDtype.isNumeric]
    unfold selectStrategy
    split_ifs <;> simp_all

/-- Witness for C4 at concrete columns: an object column is not given RLE
and a numeric column is not given DICTIONARY. -/
theorem c4_selector_decision_witness :
    selectStrategy (SeriesModel.mk .object [some (5 : Int), some 6]) ≠
      .rle ∧
    selectStrategy (SeriesModel.mk .int64 [some (5 : Int), some 6]) ≠
      .dictionary :=
  ⟨(c4_selector_decision (SeriesModel.mk .object [some (5 : Int), some 6])).2.1
      rfl,
   (c4_selector_decision (SeriesModel.mk .int64 [some (5 : Int), some 6])).2.2
      rfl⟩

/-- Claim C10 (confirmed). A zero-row column is all-null vacuously, so the
selector returns NULL; the NULL payload for zero rows is the four zero
bytes of a big-endian `u32` zero; decoding it back at row count zero
yields the empty column. -/
theorem c10_zero_rows (s : SeriesModel Int) (h : s.values = []) :
    selectStrategy s = .null ∧
    writeNullColumn 0 = [0, 0, 0, 0] ∧
    readNullColumn (writeNullColumn 0) 0 = .ok [] :=
  ⟨by simp [selectStrategy, h], rfl, rfl⟩

/-- Witness for C10 at a concrete empty column. -/
theorem c10_zero_rows_witness :
    selectStrategy (SeriesModel.mk .float64 ([] : List (Option Int))) =
      .null ∧
    writeNullColumn 0 = [0, 0, 0, 0] ∧
    readNullColumn (writeNullColumn 0) 0 = .ok [] :=
  c10_zero_rows (SeriesModel.mk .float64 []) rfl

/-- Claim C7 (corrected), counterexample: an RLE payload whose single run
has length 3 decodes without any error against a declared row count of 2,
materializing 3 rows — no length check happens on the RLE path. -/
theorem c7_rle_unchecked :
    readRLE (writeRLE [(RunValue.intVal 5, 3)]) 2 =
      .ok [.intVal 5, .intVal 5, .intVal 5] ∧ (3 : Nat) ≠ 2 :=
  ⟨rfl, by decide⟩

/-- Claim C7 (corrected), amended: SINGLE_VALUE and NULL payloads fail
with the length-mismatch error exactly when the stored length differs from
the declared row count and materialize exactly `R` rows otherwise, while
an RLE payload decodes to the concatenation of its runs with no check
against the declared row count. -/
theorem c7_length_checks (stored rowCount : Nat) (v : RunValue)
    (runs : List (RunValue × Nat)) (hs : stored < 4294967296) (hv : v.wf)
    (hr : ∀ r ∈ runs, r.1.wf ∧ r.2 < 4294967296)
    (hn : runs.length < 4294967296) :
    readSingleValue (writeSingleValue v stored) rowCount =
      (if stored = rowCount then .ok (List.replicate rowCount v)
        else .error .lengthMismatch) ∧
    readNullColumn (writeNullColumn stored) rowCount =
      (if stored = rowCount then .ok (List.replicate rowCount .null)
        else .error .lengthMismatch) ∧
    readRLE (writeRLE runs) rowCount =
      .ok (runs.flatMap (fun r => List.replicate r.2 r.1)) := by
  have h4 : readU32be (u32be stored) = .ok (stored, []) := by
    have := readU32be_u32be stored hs []
    simpa using this
  refine ⟨?_, ?_, ?_⟩
  · simp only [writeSingleValue, readSingleValue,
      readRunValue_writeRunValue v hv, h4]
    by_cases h : stored = rowCount <;> simp [h]
  · simp only [writeNullColumn, readNullColumn, h4]
    by_cases h : stored = rowCount <;> simp [h]
  · have hrr : readRLERuns runs.length
        (runs.flatMap (fun r => writeRunValue r.1 ++ u32be r.2)) =
        .ok (runs.flatMap (fun r => List.replicate r.2 r.1), []) := by
      have := readRLERuns_writeRuns runs [] hr
      simpa using this
    simp only [writeRLE, readRLE, readU32be_u32be runs.length hn, hrr]

/-- Witness for C7 at concrete payloads: a SINGLE_VALUE column of 4 copies
of the string ab round-trips, the mismatched stored length 7 is rejected,
and a 2-run RLE payload decodes to its 3 rows. -/
theorem c7_length_checks_witness :
    readSingleValue (writeSingleValue (RunValue.strVal [97, 98]) 4) 4 =
      .ok (List.replicate 4 (RunValue.strVal [97, 98])) ∧
    readNullColumn (writeNullColumn 7) 9 = .error .lengthMismatch ∧
    readRLE (writeRLE [(RunValue.null, 1), (RunValue.intVal 2, 2)]) 3 =
      .ok [.null, .intVal 2, .intVal 2] := by
  have hstr : (RunValue.strVal [97, 98]).wf := by
    show ([97, 98] : List Nat).length < 256
    decide
  have hnull : RunValue.null.wf := trivial
  have hruns : ∀ r ∈ [(RunValue.null, 1), (RunValue.intVal 2, 2)],
      (r.1).wf ∧ r.2 < 4294967296 := by
    intro r hm
    simp only [List.mem_cons, List.not_mem_nil, or_false] at hm
    rcases hm with rfl | rfl
    · exact ⟨trivial, by decide⟩
    · exact ⟨⟨by decide, by decide⟩, by decide⟩
  refine ⟨?_, ?_, ?_⟩
  · have := (c7_length_checks 4 4 (RunValue.strVal [97, 98]) []
      (by decide) hstr (by simp) (by decide)).1
    simpa using this
  · have := (c7_length_checks 7 9 RunValue.null []
      (by decide) hnull (by simp) (by decide)).2.1
    simpa using this
  · have := (c7_length_checks 0 3 RunValue.null
      [(RunValue.null, 1), (RunValue.intVal 2, 2)]
      (by decide) hnull hruns (by decide)).2.2
    simpa using this

/-- Claim C5 (corrected), counterexample: on the column `[0, 100]` — all
values in `[0, 127]` — the analyzer variant in `utils/numeric.py` returns
INT8, not the UINT8 the claim requires of every analyzer. -/
theorem c5_utils_prefers_signed :
    utilsOptimalIntDtype [0, 100] = .int8 ∧
    claimIntStorage (listMin [0, 100]) (listMax [0, 100]) = .uint8 ∧
    StorageType.int8 ≠ StorageType.uint8 := by
  refine ⟨by decide, by decide, by decide⟩

set_option maxHeartbeats 1000000 in
/-- Claim C5 (corrected), amended: the integer analyzers in
`core/types.py` and `formats/raw.py` follow the claimed min/max ladder —
unsigned widths preferred when `min ≥ 0` — while the variant in
`utils/numeric.py` tests each signed range before the unsigned range of
the same width, so a column within `[0, 127]` is typed INT8 there. -/
theorem c5_integer_ladders (values : List Int) (hne : values ≠ []) :
    analyzeIntegerStorage (values.map some) =
      claimIntStorage (listMin values) (listMax values) ∧
    rawOptimalIntDtype values =
      claimIntStorage (listMin values) (listMax values) ∧
    (0 ≤ listMin values → listMax values ≤ 127 →
      utilsOptimalIntDtype values = .int8) := by
  obtain ⟨v, vs, rfl⟩ : ∃ v vs, values = v :: vs := by
    cases values with
    | nil => exact absurd rfl hne
    | cons v vs => exact ⟨v, vs, rfl⟩
  have hfm : (((v :: vs).map some).filterMap id) = v :: vs := by
    simp [List.filterMap_map]
  refine ⟨?_, ?_, ?_⟩
  · simp only [analyzeIntegerStorage, hfm, claimIntStorage]
    split_ifs <;> first | rfl | omega
  · simp only [rawOptimalIntDtype, claimIntStorage]
    split_ifs <;> first | rfl | omega
  · intro h0 h127
    simp only [utilsOptimalIntDtype]
    split_ifs <;> first | rfl | omega

/-- Witness for C5 at the concrete column `[0, 100]`. -/
theorem c5_integer_ladders_witness :
    analyzeIntegerStorage ([0, 100].map some) =
      claimIntStorage (listMin [0, 100]) (listMax [0, 100]) ∧
    utilsOptimalIntDtype [0, 100] = .int8 :=
  ⟨(c5_integer_ladders [0, 100] (by decide)).1,
   (c5_integer_ladders [0, 100] (by decide)).2.2 (by decide) (by decide)⟩

/-- Claim C2 (code bug). On the non-nullable INT64 column `[1, 2, 3]` the
analyzer narrows storage to UINT8, the minimal writer emits the three
1-byte storage images — not the logical 8-byte width the claim (and the
reader) use — and the minimal reader, consuming the logical width,
demands 24 bytes of the 3 available and fails with the truncation error
instead of round-tripping. -/
theorem c2_minimal_width_bug :
    analyzeIntSeries .int64 [some 1, some 2, some 3] =
      ⟨.int64, .uint8, false⟩ ∧
    minimalWriteNumericColumn [some 1, some 2, some 3]
      ⟨.int64, .uint8, false⟩ = [1, 2, 3] ∧
    LogicalType.itemsize .int64 * 3 = 24 ∧
    minimalReadNumericColumn [1, 2, 3] ⟨.int64, .uint8, false⟩ 3 =
      .error .truncated :=
  ⟨rfl, rfl, rfl, rfl⟩

/-- Claim C1 (code bug). For the one-column table `a = [1, 2, 3]` (INT64)
the factory estimate is tiny, so the minimal container is chosen; encoding
and then decoding does not return the table — the reader fails with the
truncation error, because the writer emitted narrowed UINT8 storage bytes
while the reader consumes the logical INT64 width. -/
theorem c1_roundtrip_bug :
    FormatFactory.createWriter ⟨156, [[97]]⟩ = .minimal ∧
    minimalReadTable (minimalWriteTable
      ⟨3, [⟨[97], .int64, [some 1, some 2, some 3]⟩]⟩) =
      .error .truncated :=
  ⟨rfl, rfl⟩

theorem readDictEntries_write (entries : List (List Nat)) (rest : List Nat)
    (hent : ∀ e ∈ entries, e.length < 256) :
    readDictEntries entries.length
      (entries.flatMap (fun e => (e.length % 256) :: e) ++ rest) =
      .ok (entries, rest) := by
  induction entries with
  | nil => rfl
  | cons e es ih =>
      have he : e.length < 256 := hent e (List.mem_cons_self e es)
      have hmod : e.length % 256 = e.length := Nat.mod_eq_of_lt he
      have hres := ih (fun x hx => hent x (List.mem_cons_of_mem e hx))
      simp only [List.flatMap_cons, List.cons_append, List.append_assoc,
        List.length_cons]
      show readDictEntries (es.length + 1) _ = _
      unfold readDictEntries
      simp only [readU8, hmod]
      have ht : (e ++ (es.flatMap (fun x => (x.length % 256) :: x) ++ rest)).take
          e.length = e := by
        have := List.take_left e
          (es.flatMap (fun x => (x.length % 256) :: x) ++ rest)
        simpa using this
      have hd : (e ++ (es.flatMap (fun x => (x.length % 256) :: x) ++ rest)).drop
          e.length = es.flatMap (fun x => (x.length % 256) :: x) ++ rest := by
        have := List.drop_left e
          (es.flatMap (fun x => (x.length % 256) :: x) ++ rest)
        simpa using this
      rw [hd, hres, ht]

theorem findIdx_mem_self {s : List Nat} {l : List (List Nat)} (h : s ∈ l) :
    l.findIdx (fun e => e = s) < l.length ∧
    l.get? (l.findIdx (fun e => e = s)) = some s := by
  induction l with
  | nil => simp at h
  | cons e es ih =>
      by_cases he : e = s
      · subst he
        simp [List.findIdx_cons]
      · have hs : s ∈ es := by
          rcases List.mem_cons.mp h with h1 | h1
          · exact absurd h1.symm he
          · exact h1
        obtain ⟨ih1, ih2⟩ := ih hs
        have hp : decide (e = s) = false := by simp [he]
        rw [List.findIdx_cons, hp]
        simp only [Bool.cond_false, List.length_cons, List.get?_cons_succ]
        exact ⟨by omega, ih2⟩

theorem decodeIndices_map (entries : List (List Nat)) (bits : Nat)
    (hsen : entries.length ≤ 2 ^ bits - 1) :
    ∀ values : List (Option (List Nat)),
    (∀ v ∈ values, ∀ s, v = some s → s ∈ entries) →
    decodeIndices entries bits (values.map (dictIndex entries bits)) =
      .ok values := by
  intro values
  induction values with
  | nil => intro; rfl
  | cons v vs ih =>
      intro hval
      have hres := ih (fun x hx s hs => hval x (List.mem_cons_of_mem v hx) s hs)
      cases v with
      | none =>
          show decodeIndices entries bits
            ((2 ^ bits - 1) :: vs.map (dictIndex entries bits)) = _
          unfold decodeIndices
          simp [hres]
      | some s =>
          have hmem : s ∈ entries :=
            hval (some s) (List.mem_cons_self _ _) s rfl
          obtain ⟨hlt, hget⟩ := findIdx_mem_self hmem
          show decodeIndices entries bits
            (entries.findIdx (fun e => e = s) ::
              vs.map (dictIndex entries bits)) = _
          unfold decodeIndices
          have hne : ¬ entries.findIdx (fun e => e = s) = 2 ^ bits - 1 := by
            omega
          rw [if_neg hne, List.get?_eq_getElem?] at *
          rw [show entries[entries.findIdx (fun e => e = s)]? = some s from hget,
            hres]

/-- Claim C3 (code bug). For the object-dtype numeric column `[1, 2]` with
no nulls, `write_optimized_numeric` emits no null bitmap — payload
`[dtype_code, 1, 2]`, one byte per value and nothing else — while the
claimed layout has an unconditional `⌈R/8⌉`-byte bitmap after the dtype
code; `read_optimized_numeric` does consume a bitmap unconditionally, so
it misreads the first value byte as a bitmap and crashes (the `TypeError`
of a null assigned into an integer array). With a null present the writer
does emit the bitmap. -/
theorem c3_conditional_bitmap_bug :
    writeOptimizedNumeric .uint8 [some 1, some 2] = [1, 1, 2] ∧
    readOptimizedNumeric (writeOptimizedNumeric .uint8 [some 1, some 2]) 2 =
      .error .typeError ∧
    writeOptimizedNumeric .uint8 [some 1, none] = [1, 2, 1] :=
  ⟨rfl, rfl, rfl⟩

/-- Claim C6 (confirmed). For a dictionary of `k` distinct non-null
entries, the writer emits `bits_per_index = max(1, ⌈log₂(k+1)⌉)` as the
third payload byte; every null row is packed as the all-ones sentinel
index `(1 << bits) − 1`; and reading back the written payload at the
declared row count decodes the sentinel to null in every position it
appears and every non-sentinel index to its dictionary entry — the decoded
column equals the encoded one. -/
theorem c6_dictionary_codec (entries : List (List Nat))
    (values : List (Option (List Nat)))
    (hk : entries.length < 65536)
    (hent : ∀ e ∈ entries, e.length < 256)
    (hval : ∀ v ∈ values, ∀ s, v = some s → s ∈ entries) :
    bitsNeeded entries.length = max 1 (Nat.clog 2 (entries.length + 1)) ∧
    (writeDictionary entries values).get? 2 =
      some (bitsNeeded entries.length) ∧
    dictIndex entries (bitsNeeded entries.length) none =
      2 ^ bitsNeeded entries.length - 1 ∧
    readDictionary (writeDictionary entries values) values.length =
      .ok values := by
  have hbpos : 0 < bitsNeeded entries.length := le_max_left 1 _
  have hk1 : entries.length + 1 ≤ 2 ^ bitsNeeded entries.length := by
    calc entries.length + 1 ≤ 2 ^ Nat.clog 2 (entries.length + 1) :=
          Nat.le_pow_clog (by norm_num) _
    _ ≤ 2 ^ bitsNeeded entries.length :=
          Nat.pow_le_pow_right (by norm_num) (le_max_right _ _)
  have hidx : ∀ i ∈ values.map (dictIndex entries (bitsNeeded entries.length)),
      i < 2 ^ bitsNeeded entries.length := by
    intro i hi
    obtain ⟨v, hv, rfl⟩ := List.mem_map.mp hi
    cases v with
    | none =>
        show 2 ^ bitsNeeded entries.length - 1 < 2 ^ bitsNeeded entries.length
        have : 0 < 2 ^ bitsNeeded entries.length :=
          Nat.pos_pow_of_pos _ (by norm_num)
        omega
    | some s =>
        have hmem : s ∈ entries := hval (some s) hv s rfl
        obtain ⟨hlt, _⟩ := findIdx_mem_self hmem
        show entries.findIdx (fun e => e = s) < 2 ^ bitsNeeded entries.length
        omega
  obtain ⟨hden, hplen⟩ := packIndices_spec (bitsNeeded entries.length)
    (values.map (dictIndex entries (bitsNeeded entries.length))) hidx
  have hwd : writeDictionary entries values =
      u16be entries.length ++
        (bitsNeeded entries.length ::
          (entries.flatMap (fun e => (e.length % 256) :: e) ++
            packIndices (bitsNeeded entries.length)
              (values.map (dictIndex entries (bitsNeeded entries.length))))) := by
    unfold writeDictionary
    simp [List.append_assoc]
  refine ⟨rfl, ?_, rfl, ?_⟩
  · rw [hwd]
    rfl
  · rw [hwd]
    unfold readDictionary
    rw [readU16be_u16be entries.length hk]
    simp only [readU8]
    rw [readDictEntries_write entries _ hent]
    dsimp only
    have hmaplen :
        (values.map (dictIndex entries (bitsNeeded entries.length))).length =
        values.length := List.length_map _ _
    have htb : (values.length * bitsNeeded entries.length + 7) / 8 =
        (packIndices (bitsNeeded entries.length)
          (values.map (dictIndex entries (bitsNeeded entries.length)))).length := by
      rw [hplen, hmaplen]
      have : values.length * bitsNeeded entries.length =
          bitsNeeded entries.length * values.length := by ring
      rw [this]
    rw [htb, List.take_length]
    have hri := readIndices_packIndices (bitsNeeded entries.length)
      (values.map (dictIndex entries (bitsNeeded entries.length))) hbpos hidx
    rw [hmaplen] at hri
    rw [hri]
    exact decodeIndices_map entries (bitsNeeded entries.length)
      (by omega) values hval

/-- Witness for C6 at a concrete dictionary column: entries a, b, c
(k = 3, bits = 2, sentinel = 3) and the rows a, null, c, b round-trip. -/
theorem c6_dictionary_codec_witness :
    readDictionary
      (writeDictionary [[97], [98], [99]]
        [some [97], none, some [99], some [98]]) 4 =
      .ok [some [97], none, some [99], some [98]] ∧
    (writeDictionary [[97], [98], [99]]
        [some [97], none, some [99], some [98]]).get? 2 =
      some (bitsNeeded 3) := by
  have h := c6_dictionary_codec [[97], [98], [99]]
    [some [97], none, some [99], some [98]]
    (by decide) (by decide) (by decide)
  exact ⟨h.2.2.2, h.2.1⟩

end Hybf
